import Mathlib

/-! # myshell: the command execution loop

A shallow embedding of `src/string_utils.c` (`ltrim`, `rtrim`, `trim`,
`concatenateArgs`) and of the loop body of `main` in `src/myshell.c`
(interrupt check, prompt, line read, tokenizer, dispatcher, launcher).

Memory is a list of bytes addressed by index; a C string is the run of bytes
from an address up to the first NUL.  The block-scope arrays of `main`
(`input_char`, `command`, `args`, `full_command`) carry no initialiser, so the
embedding keeps them in a `Frame` that every loop iteration receives as it was
left by the one before.
-/

namespace MyShell

/-! ## Bytes, memory and C strings -/

/-- The terminating null byte. -/
def NUL : Char := Char.ofNat 0

/-- The `isspace` of `<ctype.h>` in the "C" locale: space, `\t`, `\n`, `\v`,
`\f`, `\r`. -/
def isspace (c : Char) : Bool :=
  c == ' ' || c == '\t' || c == '\n' || c == Char.ofNat 11 || c == Char.ofNat 12 || c == '\r'

/-- A region of memory, byte by byte; an address is an index into it.  Bytes
beyond the modelled region read as NUL. -/
abbrev Mem := List Char

/-- The byte at an address: `*p`. -/
def peek (m : Mem) (p : Nat) : Char := m.getD p NUL

/-- The store `*p = c`. -/
def poke (m : Mem) (p : Nat) (c : Char) : Mem := m.set p c

/-- The C string at address `p`: the bytes from `p` up to the first NUL. -/
def cstr (m : Mem) (p : Nat) : List Char := (m.drop p).takeWhile (fun c => c != NUL)

/-- The `strlen` of `<string.h>`. -/
def strlen (m : Mem) (p : Nat) : Nat := (cstr m p).length

/-- The `strspn` of `<string.h>`: length of the initial segment of the string
at `p` made of bytes in `accept`. -/
def strspn (m : Mem) (p : Nat) (accept : List Char) : Nat :=
  ((cstr m p).takeWhile (fun c => accept.contains c)).length

/-- The `strcspn` of `<string.h>`: length of the initial segment of the string
at `p` made of bytes not in `reject`. -/
def strcspn (m : Mem) (p : Nat) (reject : List Char) : Nat :=
  ((cstr m p).takeWhile (fun c => !reject.contains c)).length

/-- The `strtok` of `<string.h>`, with its static save pointer made explicit:
`s` is the place scanning starts from (the string on a first call, the saved
pointer on a call with `NULL`).  Returns the token (`none` for `NULL`), the
memory and the new save pointer. -/
def strtok (delim : List Char) (m : Mem) (s : Nat) : Option Nat × Mem × Nat :=
  let start := s + strspn m s delim
  if peek m start = NUL then (none, m, start)
  else
    let stop := start + strcspn m start delim
    if peek m stop = NUL then (some start, m, stop)
    else (some start, poke m stop NUL, stop + 1)

/-! ## string_utils.c -/

/-- The function `ltrim`: `while (isspace((unsigned char)*s)) s++; return s;` (the scan
stops at the NUL, which is no space). -/
def ltrim (m : Mem) (s : Nat) : Nat :=
  s + ((m.drop s).takeWhile isspace).length

/-- The scan `while (isspace((unsigned char)*--back));` of `rtrim`, entered
with the pointer `back`: the value of `back` when the scan stops, or `none`
when the scan runs off the low end of the modelled memory. -/
def rtrimScan (m : Mem) : Nat → Option Nat
  | 0 => none
  | back + 1 => if isspace (peek m back) then rtrimScan m back else some back

/-- The function `rtrim`: `back = s + strlen(s); while (isspace(*--back)); *(back+1) = 0;
return s;`.  The returned pointer is `s` itself; the result is the memory after
the store (`none` when the scan left the modelled memory). -/
def rtrim (m : Mem) (s : Nat) : Option Mem :=
  match rtrimScan m (s + strlen m s) with
  | none => none
  | some back => some (poke m (back + 1) NUL)

/-- The function `trim`: `return rtrim(ltrim(s));`, the returned pointer and the memory. -/
def trim (m : Mem) (s : Nat) : Option (Nat × Mem) :=
  match rtrim m (ltrim m s) with
  | none => none
  | some m1 => some (ltrim m s, m1)

/-- The first loop of `concatenateArgs`:
`for (i = 0; i < ARG_MAX && args[i] != NULL; ++i) totalLength += strlen(args[i]) + 1;`
run from index `i` with `bound` iterations left before `i` reaches `ARG_MAX`. -/
def totalLengthLoop (args : Nat → Option (List Char)) : Nat → Nat → Nat → Nat
  | 0, _, total => total
  | bound + 1, i, total =>
    match args i with
    | none => total
    | some s => totalLengthLoop args bound (i + 1) (total + (s.length + 1))

/-- The second loop of `concatenateArgs`:
`for (...) { strcat(argsv, args[i]); strcat(argsv, " "); }`. -/
def strcatLoop (args : Nat → Option (List Char)) : Nat → Nat → List Char → List Char
  | 0, _, argsv => argsv
  | bound + 1, i, argsv =>
    match args i with
    | none => argsv
    | some s => strcatLoop args bound (i + 1) (argsv ++ s ++ [' '])

/-- The number of bytes `concatenateArgs` asks `malloc` for. -/
def totalLength (ARG_MAX : Nat) (args : Nat → Option (List Char)) : Nat :=
  totalLengthLoop args ARG_MAX 0 0

/-- The function `concatenateArgs`: `args` is the array of strings (`none` for a `NULL`
entry), `mallocOk` whether `malloc` returned a block.  The result is the string
left in `argsv` (`none` for the `NULL` returned when allocation fails). -/
def concatenateArgs (ARG_MAX : Nat) (mallocOk : Bool) (args : Nat → Option (List Char)) :
    Option (List Char) :=
  if mallocOk then some (strcatLoop args ARG_MAX 0 []) else none

/-! ## myshell.c: the state of the loop -/

/-- Constants of the missing `constants.h` and of `<linux/limits.h>`. -/
structure Consts where
  /-- Capacity of `input_char`, `command`, `args` and `full_command`. -/
  ARG_MAX : Nat
  /-- The delimiter set handed to `strtok`. -/
  SPACE_DELIMETER : List Char

/-- A `char *` held in `args` or `full_command`. -/
inductive Ptr
  | null
  | command
  | input (p : Nat)
  deriving DecidableEq, Repr

/-- The stack frame of `main` as far as the loop uses it, and the global
`sigint_received`. -/
structure Frame where
  /-- The stack bytes around `input_char`, which starts at index `base`. -/
  mem : Mem
  /-- Address of `input_char[0]` in `mem`. -/
  base : Nat
  /-- The string held in `command`. -/
  command : List Char
  /-- The array `args`. -/
  args : Nat → Ptr
  /-- The array `full_command`. -/
  full_command : Nat → Ptr
  /-- The flag set by `sigint_handler`. -/
  sigint_received : Bool

/-- The string a pointer of the frame points to (`none` for `NULL`). -/
def Frame.str (f : Frame) : Ptr → Option (List Char)
  | .null => none
  | .command => some f.command
  | .input p => some (cstr f.mem p)

/-- The array store `a[i] = v`. -/
def store (a : Nat → Ptr) (i : Nat) (v : Ptr) : Nat → Ptr :=
  fun j => if j = i then v else a j

/-- What `fgets(input_char, sizeof(input_char), stdin)` did. -/
inductive ReadResult
  /-- A line is pending on stdin (its newline included when it has one). -/
  | line (s : List Char)
  /-- The call returned `NULL`; `eintr` tells whether `errno == EINTR`. -/
  | null (eintr : Bool)

/-- What the environment answers during one iteration. -/
structure World where
  /-- Outcome of the line read. -/
  read : ReadResult
  /-- A SIGINT arrived while the read was blocked (the handler ran). -/
  sigint : Bool
  /-- Value of `getenv("HOME")`. -/
  home : Option (List Char)
  /-- Value of `getcwd(cwd, sizeof(cwd))`. -/
  cwd : Option (List Char)
  /-- Whether `malloc` returns a block. -/
  mallocOk : Bool
  /-- Value of `fork()` in the process that is followed. -/
  forkRet : Int
  /-- Value of `setpgid(0, 0)`. -/
  setpgidRet : Int
  /-- Whether `signal(SIGINT, SIG_DFL)` returned `SIG_ERR`. -/
  signalErr : Bool
  /-- Whether `execvp` returned (it returns only on failure). -/
  execvpFails : Bool
  /-- The wait status stored by `waitpid`. -/
  status : Nat

/-- The observable steps of an iteration. -/
inductive Event
  | printf (s : List Char)
  | perror (s : List Char)
  /-- The prompt block: pid, user, host, cwd, `"$ "`, `fflush(stdout)`. -/
  | prompt
  | fgets
  | clearerr
  | changeDirectory (path : Option (List Char))
  | quitShell
  | clearScreen
  | listEnviron
  | listFiles (path : Option (List Char))
  | echo (s : List Char)
  | printWorkingDirectory
  | help
  | pauseShell
  | fork
  | setpgid
  | signalDfl
  | execvp (file : List Char) (argv : List (List Char))
  | waitpid (pid : Int)
  deriving DecidableEq, Repr

/-- How an iteration ends. -/
inductive Control
  /-- Back to the top of `while (true)`. -/
  | next
  /-- The process called `exit(code)`. -/
  | exit (code : Nat)
  /-- The process image was replaced by `execvp`. -/
  | exec
  /-- Control entered `quitShell` of the missing `kernel_commands`, which by the
  specification terminates the process and never returns. -/
  | quit
  /-- The pass left the modelled memory: what follows is not defined. -/
  | fault
  deriving DecidableEq, Repr

/-! ## myshell.c: line read and tokenizer -/

/-- The call `fgets(input_char, sizeof(input_char), stdin)` returning non-`NULL`: at most
`ARG_MAX - 1` bytes of the pending line go to `input_char`, followed by a NUL;
the bytes of `input_char` after that keep their old value. -/
def fgets (ARG_MAX : Nat) (m : Mem) (base : Nat) (s : List Char) : Mem :=
  let stored := s.take (ARG_MAX - 1)
  m.take base ++ stored ++ NUL :: m.drop (base + stored.length + 1)

/-- The loop `while (token != NULL) { ... }` of lines 112-121: `token` is the
current token, `save` the save pointer of `strtok`, `i` the counter, and the
first argument the number of passes left before `full_command[i + 1]` falls
outside the array (`ARG_MAX - 1 - i`); `none` when a token arrives with no pass
left, where the source would store past the end of `full_command`. -/
def argLoop (delim : List Char) :
    Nat → Option Nat → Nat → Nat → Frame → List Event → Option (Nat × Frame × List Event)
  | _, none, _, i, f, out => some (i, f, out)
  | 0, some _, _, _, _, _ => none
  | free + 1, some token, save, i, f, out =>
    let r := strtok delim f.mem save
    argLoop delim free r.1 r.2.2 (i + 1)
      { f with mem := r.2.1
               args := store f.args i (.input token)
               full_command := store f.full_command (i + 1) (.input token) }
      (out ++ [.printf ("Arg: ".toList ++ cstr f.mem token ++ ['\n'])])

/-- Lines 91-121 of `main`: newline strip, `strtok(trim(input_char), ...)`, the
copy of the first token into `command`, and the argument loop.  Returns the
final `i`, the frame and what was printed; `none` when `rtrim` left the
modelled memory or the tokens outnumber the entries of `full_command`. -/
def tokenize (c : Consts) (f : Frame) : Option (Nat × Frame × List Event) :=
  let m0 := poke f.mem (f.base + strcspn f.mem f.base ['\n']) NUL
  match trim m0 f.base with
  | none => none
  | some (p, m1) =>
    let r := strtok c.SPACE_DELIMETER m1 p
    match r.1 with
    | none => some (0, { f with mem := r.2.1 }, [])
    | some token =>
      match trim r.2.1 token with
      | none => none
      | some (q, m2) =>
        let r2 := strtok c.SPACE_DELIMETER m2 r.2.2
        argLoop c.SPACE_DELIMETER (c.ARG_MAX - 1) r2.1 r2.2.2 0
          { f with mem := r2.2.1
                   command := cstr m2 q
                   full_command := store f.full_command 0 .command }
          [.printf ("Command: ".toList ++ cstr m2 q ++ ['\n'])]

/-! ## myshell.c: dispatcher and launcher -/

/-- The `WIFEXITED` of `<sys/wait.h>`: the low seven bits are zero. -/
def WIFEXITED (status : Nat) : Bool := status % 128 == 0

/-- The `WEXITSTATUS` of `<sys/wait.h>`: bits 8 to 15. -/
def WEXITSTATUS (status : Nat) : Nat := (status / 256) % 256

/-- The `EXIT_FAILURE` of `<stdlib.h>`. -/
def EXIT_FAILURE : Nat := 1

/-- The strings of a pointer array of the frame, as `concatenateArgs` sees it. -/
def Frame.strs (f : Frame) (a : Nat → Ptr) : Nat → Option (List Char) :=
  fun i => f.str (a i)

/-- The argument vector `execvp` reads from a pointer array: the strings up to
the first `NULL`, within the `bound` entries of the array. -/
def argvOf (a : Nat → Option (List Char)) : Nat → Nat → List (List Char)
  | 0, _ => []
  | bound + 1, i =>
    match a i with
    | none => []
    | some s => s :: argvOf a bound (i + 1)

/-- The `perror` of `concatenateArgs` when `malloc` returns `NULL`. -/
def allocFailure : Event :=
  .perror "Unable to allocate memory for concatenated arguments".toList

/-- The lines 194-196 of the child: `concatenateArgs(full_command)` and the
`printf` of its result (`(null)` stands for what `%s` prints for `NULL`). -/
def childTrace (c : Consts) (w : World) (f : Frame) : List Event :=
  match concatenateArgs c.ARG_MAX w.mallocOk (f.strs f.full_command) with
  | some argsv => [.printf ("full_command: --".toList ++ argsv ++ "--\n".toList)]
  | none => [allocFailure, .printf "full_command: --(null)--\n".toList]

/-- The `else` branch of lines 169-219: `fork`, then the child (`fork() == 0`)
or the parent. -/
def launch (c : Consts) (w : World) (f : Frame) : List Event × Control :=
  if w.forkRet = 0 then
    if w.setpgidRet = -1 then
      ([.fork, .setpgid, .perror "setpgid failed".toList], .exit EXIT_FAILURE)
    else if w.signalErr then
      ([.fork, .setpgid, .signalDfl, .perror "Signal error in child".toList], .exit EXIT_FAILURE)
    else
      let call := Event.execvp f.command (argvOf (f.strs f.full_command) c.ARG_MAX 0)
      if w.execvpFails then
        ([.fork, .setpgid, .signalDfl] ++ childTrace c w f ++
          [call, .printf "Command not found\n".toList, .perror "execvp".toList],
         .exit EXIT_FAILURE)
      else ([.fork, .setpgid, .signalDfl] ++ childTrace c w f ++ [call], .exec)
  else
    if WIFEXITED w.status && WEXITSTATUS w.status != 0 then
      ([.fork, .waitpid w.forkRet,
        .printf ("Exit status: ".toList ++ (Nat.repr (WEXITSTATUS w.status)).toList ++ ['\n'])],
       .next)
    else ([.fork, .waitpid w.forkRet], .next)

/-- Lines 123-219 of `main`: the `strcmp` chain on `command`. -/
def dispatch (c : Consts) (w : World) (f : Frame) : List Event × Control :=
  if f.command = "cd".toList then
    if f.args 0 ≠ .null ∧ f.args 1 = .null then
      ([.changeDirectory (f.str (f.args 0))], .next)
    else if f.args 0 = .null then
      ([.changeDirectory w.home], .next)
    else
      ([.printf "myshell: cd: too many arguments\n".toList], .next)
  else if f.command = "quit".toList ∨ f.command = "exit".toList then
    ([.quitShell], .quit)
  else if f.command = "clr".toList then
    if f.args 0 ≠ .null then
      ([.printf "Usage: clear\n".toList], .next)
    else
      ([.clearScreen], .next)
  else if f.command = "environ".toList then
    ([.listEnviron], .next)
  else if f.command = "dir".toList then
    if f.args 0 ≠ .null ∧ f.args 1 ≠ .null then
      ([.printf "Usage: dir [path]\n".toList], .next)
    else if f.args 0 ≠ .null then
      ([.listFiles (f.str (f.args 0))], .next)
    else
      ([.listFiles w.cwd], .next)
  else if f.command = "echo".toList then
    match concatenateArgs c.ARG_MAX w.mallocOk (f.strs f.args) with
    | some argsv => ([.echo argsv], .next)
    | none =>
      ([allocFailure, .printf ("Error concatenating args for ".toList ++ f.command)], .next)
  else if f.command = "pwd".toList then
    ([.printWorkingDirectory], .next)
  else if f.command = "help".toList then
    ([.help], .next)
  else if f.command = "pause".toList then
    ([.pauseShell], .next)
  else
    launch c w f

/-! ## myshell.c: one pass of `while (true)` -/

/-- Lines 76-89: the line read.  `none` stands for the `continue` of the
interrupted read, otherwise the frame the rest of the iteration works on. -/
def readLine (c : Consts) (w : World) (f : Frame) : Option Frame :=
  match w.read with
  | .line s => some { f with mem := fgets c.ARG_MAX f.mem f.base s }
  | .null eintr => if eintr && f.sigint_received then none else some f

/-- One pass of the loop body, lines 37-219: the events, how the pass ends and
the frame it leaves.  The flag is clear when the read starts, so after the read
it is set exactly when a SIGINT arrived meanwhile. -/
def iteration (c : Consts) (w : World) (f : Frame) : List Event × Control × Frame :=
  if f.sigint_received then
    ([.printf ['\n']], .next, { f with sigint_received := false })
  else
    let f0 := { f with sigint_received := w.sigint }
    match readLine c w f0 with
    | none =>
      ([.prompt, .fgets, .printf ['\n'], .clearerr], .next,
       { f0 with sigint_received := false })
    | some f1 =>
      match tokenize c f1 with
      | none => ([.prompt, .fgets], .fault, f1)
      | some r =>
        let d := dispatch c w r.2.1
        ([.prompt, .fgets] ++ r.2.2 ++ d.1, d.2, r.2.1)

/-- The loop: one `World` per pass, until the inputs run out or a pass does not
come back to the top of the loop.  Returns the events of each pass, how the
last pass ended and the frame it left. -/
def run (c : Consts) : List World → Frame → List (List Event) × Control × Frame
  | [], f => ([], .next, f)
  | w :: ws, f =>
    let r := iteration c w f
    match r.2.1 with
    | .next =>
      let rest := run c ws r.2.2
      (r.1 :: rest.1, rest.2.1, rest.2.2)
    | ctl => ([r.1], ctl, r.2.2)

/-- The function `main`: `sigaction` installs the handler (`perror` and
`return 1` when it fails), then the loop runs. -/
def main (c : Consts) (sigactionRet : Int) (ws : List World) (f : Frame) :
    List (List Event) × Control × Frame :=
  if sigactionRet = -1 then ([[.perror "sigaction".toList]], .exit 1, f)
  else run c ws f

/-! ## Concrete environments -/

/-- The constants on Linux: `ARG_MAX` of `<linux/limits.h>`, a blank as the
only delimiter. -/
def linuxBlank : Consts := { ARG_MAX := 131072, SPACE_DELIMETER := [' '] }

/-- The constants on Linux with every `isspace` byte as a delimiter. -/
def linuxSpaces : Consts :=
  { ARG_MAX := 131072
    SPACE_DELIMETER := [' ', '\t', '\n', Char.ofNat 11, Char.ofNat 12, '\r'] }

/-- A frame whose bytes and pointers are all zero: one byte below
`input_char`, then the `ARG_MAX` bytes of `input_char`. -/
def zeroFrame : Frame :=
  { mem := List.replicate (1 + 131072) NUL
    base := 1
    command := []
    args := fun _ => .null
    full_command := fun _ => .null
    sigint_received := false }

/-- An environment in which a line is read and every call succeeds; the
followed process is the parent of any `fork`, whose child exits with 0. -/
def lineWorld (s : String) : World :=
  { read := .line (s.toList ++ ['\n'])
    sigint := false
    home := some "/home/user".toList
    cwd := some "/work".toList
    mallocOk := true
    forkRet := 4242
    setpgidRet := 0
    signalErr := false
    execvpFails := false
    status := 0 }

/-! ## The words of the specification -/

/-- The tokens of a line as the specification words them: the line is split
at every white-space character and the empty pieces are dropped, which leaves
the maximal runs of non-white-space characters, in order. -/
def specTokens (line : List Char) : List (List Char) :=
  (line.splitOnP isspace).filter (fun t => !t.isEmpty)

/-- A string laid out as tokens: white space, then either nothing more, or a
last token reaching the end of the string, or a token, one white-space
character and the rest. -/
inductive Layout : List Char → List (List Char) → Prop
  | done (d : List Char) (hd : ∀ ch ∈ d, isspace ch = true) : Layout d []
  | last (d t : List Char) (hd : ∀ ch ∈ d, isspace ch = true)
      (ht : ∀ ch ∈ t, isspace ch = false) (hne : t ≠ []) : Layout (d ++ t) [t]
  | more (d t : List Char) (y : Char) (r : List Char) (ts : List (List Char))
      (hd : ∀ ch ∈ d, isspace ch = true) (ht : ∀ ch ∈ t, isspace ch = false) (hne : t ≠ [])
      (hy : isspace y = true) (h : Layout r ts) : Layout (d ++ t ++ y :: r) (t :: ts)

/-- The line the argument loop prints for a token. -/
def argLine (t : List Char) : Event := .printf ("Arg: ".toList ++ t ++ ['\n'])

/-- What the argument loop has done to a frame `f` when it leaves `f1`, having
met the tokens `toks` from counter value `i` on: the entries `args[i..]` and
`full_command[i+1..]` point to the tokens, in order, every other entry and the
rest of the frame are as before. -/
def Filled (f f1 : Frame) (i : Nat) (toks : List (List Char)) : Prop :=
  f1.base = f.base ∧ f1.command = f.command ∧ f1.sigint_received = f.sigint_received ∧
  (∀ j, j < i → f1.args j = f.args j) ∧
  (∀ j, i + toks.length ≤ j → f1.args j = f.args j) ∧
  (∀ j, j < i + 1 → f1.full_command j = f.full_command j) ∧
  (∀ j, i + 1 + toks.length ≤ j → f1.full_command j = f.full_command j) ∧
  (∀ k t, toks[k]? = some t →
    ∃ p, f1.args (i + k) = .input p ∧ f1.full_command (i + 1 + k) = .input p ∧
      cstr f1.mem p = t)

/-- The line the tokenizer prints for the command name. -/
def commandLine (t : List Char) : Event := .printf ("Command: ".toList ++ t ++ ['\n'])

/-- The names the dispatcher compares `command` with. -/
def builtinNames : List (List Char) :=
  ["cd".toList, "quit".toList, "exit".toList, "clr".toList, "environ".toList, "dir".toList,
   "echo".toList, "pwd".toList, "help".toList, "pause".toList]

/-- The calls of the builtin collaborators of `kernel_commands.h`. -/
def Event.isCollaborator : Event → Bool
  | .changeDirectory _ => true
  | .quitShell => true
  | .clearScreen => true
  | .listEnviron => true
  | .listFiles _ => true
  | .echo _ => true
  | .printWorkingDirectory => true
  | .help => true
  | .pauseShell => true
  | _ => false

/-- The steps of the process launcher. -/
def Event.isLaunch : Event → Bool
  | .fork => true
  | .setpgid => true
  | .signalDfl => true
  | .execvp _ _ => true
  | .waitpid _ => true
  | _ => false

/-- The environment of `lineWorld` seen from the child of the `fork`. -/
def childWorld (s : String) : World := { lineWorld s with forkRet := 0 }

/-- The `__W_EXITCODE` of `<bits/waitstatus.h>`: the wait status of a child that
ended with exit code `ret` (then `sig` is zero) or was ended by signal `sig`. -/
def W_EXITCODE (ret sig : Nat) : Nat := ret * 256 + sig

/-- The line the parent prints for a non-zero exit code. -/
def exitStatusLine (n : Nat) : Event :=
  .printf ("Exit status: ".toList ++ (Nat.repr n).toList ++ ['\n'])

/-- The words of the claim on `trim`: the part of a string from its first to
its last character that is no white space, both included. -/
def specTrim (s : List Char) : List Char := (s.dropWhile isspace).rdropWhile isspace

/-- The bytes `concatenateArgs` writes into `argsv`: the string its `strcat`
calls build, and the terminating NUL. -/
def bytesWritten (ARG_MAX : Nat) (args : Nat → Option (List Char)) : Nat :=
  (strcatLoop args ARG_MAX 0 []).length + 1

/-- An environment in which the line read meets the end of input: `fgets`
returns `NULL` and `errno` is not `EINTR`. -/
def eofWorld : World := { lineWorld "" with read := .null false }

/-- An environment in which a SIGINT interrupts the blocked line read: the
handler runs, `fgets` returns `NULL` and `errno` is `EINTR`. -/
def interruptWorld : World := { lineWorld "" with read := .null true, sigint := true }

/-- A frame like `zeroFrame` with two bytes below `input_char`: the byte `x`,
then a blank right below `input_char[0]`. -/
def spaceBelowFrame : Frame :=
  { mem := 'x' :: ' ' :: List.replicate 131072 NUL
    base := 2
    command := []
    args := fun _ => .null
    full_command := fun _ => .null
    sigint_received := false }

/-- A frame like `zeroFrame` whose only byte below `input_char` is a blank. -/
def blankBelowFrame : Frame :=
  { mem := ' ' :: List.replicate 131072 NUL
    base := 1
    command := []
    args := fun _ => .null
    full_command := fun _ => .null
    sigint_received := false }

/-! ## Memory lemmas -/

theorem isspace_NUL : isspace NUL = false := by decide

theorem peek_append (A : Mem) (x : Char) (B : Mem) : peek (A ++ x :: B) A.length = x := by
  unfold peek
  rw [List.getD_eq_getElem?_getD, List.getElem?_append_right (le_refl _)]
  simp

theorem poke_append (A : Mem) (x y : Char) (B : Mem) :
    poke (A ++ x :: B) A.length y = A ++ y :: B := by
  simp [poke]

theorem cstr_append (A t B : Mem) (ht : ∀ ch ∈ t, ch ≠ NUL) :
    cstr (A ++ t ++ NUL :: B) A.length = t := by
  unfold cstr
  rw [List.append_assoc, List.drop_left]
  rw [List.takeWhile_append_of_pos (by simpa using ht)]
  simp

theorem takeWhile_stop {p : Char → Bool} (d : List Char) (x : Char) (l : List Char)
    (hd : ∀ ch ∈ d, p ch = true) (hx : p x = false) :
    (d ++ x :: l).takeWhile p = d := by
  rw [List.takeWhile_append_of_pos hd, List.takeWhile_cons_of_neg (by simp [hx])]
  simp

theorem takeWhile_all {p : Char → Bool} (d : List Char) (hd : ∀ ch ∈ d, p ch = true) :
    d.takeWhile p = d := by
  have h := @List.takeWhile_append_of_pos _ p d [] hd
  simpa using h


/-! ## `strtok` on a laid-out string -/

theorem strtok_none (δ : List Char) (A d B : Mem)
    (hd : ∀ ch ∈ d, δ.contains ch = true ∧ ch ≠ NUL) :
    strtok δ (A ++ d ++ NUL :: B) A.length
      = (none, A ++ d ++ NUL :: B, A.length + d.length) := by
  have hc : cstr (A ++ d ++ NUL :: B) A.length = d := cstr_append A d B (fun ch h => (hd ch h).2)
  have hs : strspn (A ++ d ++ NUL :: B) A.length δ = d.length := by
    unfold strspn
    rw [hc, takeWhile_all d (fun ch h => (hd ch h).1)]
  have hp : peek (A ++ d ++ NUL :: B) (A.length + d.length) = NUL := by
    have := peek_append (A ++ d) NUL B
    simpa using this
  simp only [strtok, hs, hp, if_true]

theorem strtok_last (δ : List Char) (A d t B : Mem)
    (hd : ∀ ch ∈ d, δ.contains ch = true ∧ ch ≠ NUL)
    (ht : ∀ ch ∈ t, δ.contains ch = false ∧ ch ≠ NUL) (hne : t ≠ []) :
    strtok δ (A ++ d ++ t ++ NUL :: B) A.length
      = (some (A.length + d.length), A ++ d ++ t ++ NUL :: B,
         A.length + d.length + t.length) := by
  obtain ⟨x, t', rfl⟩ := List.exists_cons_of_ne_nil hne
  have hx := ht x (by simp)
  have hc : cstr (A ++ d ++ x :: t' ++ NUL :: B) A.length = d ++ x :: t' := by
    have := cstr_append A (d ++ x :: t') B (by
      intro ch h
      rcases List.mem_append.1 h with h | h
      · exact (hd ch h).2
      · exact (ht ch h).2)
    simpa [List.append_assoc] using this
  have hs : strspn (A ++ d ++ x :: t' ++ NUL :: B) A.length δ = d.length := by
    unfold strspn
    rw [hc, takeWhile_stop d x t' (fun ch h => (hd ch h).1) hx.1]
  have hp : peek (A ++ d ++ x :: t' ++ NUL :: B) (A.length + d.length) = x := by
    have := peek_append (A ++ d) x (t' ++ NUL :: B)
    simpa [List.append_assoc] using this
  have hc2 : cstr (A ++ d ++ x :: t' ++ NUL :: B) (A.length + d.length) = x :: t' := by
    have := cstr_append (A ++ d) (x :: t') B (fun ch h => (ht ch h).2)
    simpa [List.append_assoc] using this
  have hs2 : strcspn (A ++ d ++ x :: t' ++ NUL :: B) (A.length + d.length) δ
      = (x :: t').length := by
    unfold strcspn
    rw [hc2, takeWhile_all (x :: t') (fun ch h => by simpa using (ht ch h).1)]
  have hp2 : peek (A ++ d ++ x :: t' ++ NUL :: B) (A.length + d.length + (x :: t').length)
      = NUL := by
    have := peek_append (A ++ d ++ x :: t') NUL B
    simpa [List.append_assoc, Nat.add_assoc] using this
  simp only [strtok, hs, hp, hs2, hp2, if_true, if_neg hx.2]

theorem strtok_more (δ : List Char) (A d t : Mem) (y : Char) (r B : Mem)
    (hd : ∀ ch ∈ d, δ.contains ch = true ∧ ch ≠ NUL)
    (ht : ∀ ch ∈ t, δ.contains ch = false ∧ ch ≠ NUL) (hne : t ≠ [])
    (hy : δ.contains y = true ∧ y ≠ NUL) (hr : ∀ ch ∈ r, ch ≠ NUL) :
    strtok δ (A ++ d ++ t ++ y :: r ++ NUL :: B) A.length
      = (some (A.length + d.length), A ++ d ++ t ++ NUL :: r ++ NUL :: B,
         A.length + d.length + t.length + 1) := by
  obtain ⟨x, t', rfl⟩ := List.exists_cons_of_ne_nil hne
  have hx := ht x (by simp)
  have hc : cstr (A ++ d ++ x :: t' ++ y :: r ++ NUL :: B) A.length
      = d ++ x :: (t' ++ y :: r) := by
    have := cstr_append A (d ++ x :: (t' ++ y :: r)) B (by
      intro ch h
      simp only [List.mem_append, List.mem_cons] at h
      rcases h with h | h | h | h | h
      · exact (hd ch h).2
      · exact h ▸ hx.2
      · exact (ht ch (by simp [h])).2
      · exact h ▸ hy.2
      · exact hr ch h)
    simpa [List.append_assoc] using this
  have hs : strspn (A ++ d ++ x :: t' ++ y :: r ++ NUL :: B) A.length δ = d.length := by
    unfold strspn
    rw [hc, takeWhile_stop d x _ (fun ch h => (hd ch h).1) hx.1]
  have hp : peek (A ++ d ++ x :: t' ++ y :: r ++ NUL :: B) (A.length + d.length) = x := by
    have := peek_append (A ++ d) x (t' ++ y :: r ++ NUL :: B)
    simpa [List.append_assoc] using this
  have hc2 : cstr (A ++ d ++ x :: t' ++ y :: r ++ NUL :: B) (A.length + d.length)
      = x :: t' ++ y :: r := by
    have := cstr_append (A ++ d) (x :: t' ++ y :: r) B (by
      intro ch h
      simp only [List.cons_append, List.mem_append, List.mem_cons] at h
      rcases h with h | h | h | h
      · exact h ▸ hx.2
      · exact (ht ch (by simp [h])).2
      · exact h ▸ hy.2
      · exact hr ch h)
    simpa [List.append_assoc] using this
  have hs2 : strcspn (A ++ d ++ x :: t' ++ y :: r ++ NUL :: B) (A.length + d.length) δ
      = (x :: t').length := by
    unfold strcspn
    rw [hc2, takeWhile_stop (x :: t') y r (fun ch h => by simpa using (ht ch h).1) (by simpa using hy.1)]
  have hp2 : peek (A ++ d ++ x :: t' ++ y :: r ++ NUL :: B)
      (A.length + d.length + (x :: t').length) = y := by
    have := peek_append (A ++ d ++ x :: t') y (r ++ NUL :: B)
    simpa [List.append_assoc, Nat.add_assoc] using this
  have hk : poke (A ++ d ++ x :: t' ++ y :: r ++ NUL :: B)
      (A.length + d.length + (x :: t').length) NUL
      = A ++ d ++ x :: t' ++ NUL :: r ++ NUL :: B := by
    have := poke_append (A ++ d ++ x :: t') y NUL (r ++ NUL :: B)
    simpa [List.append_assoc, Nat.add_assoc] using this
  simp only [strtok, hs, hp, hs2, hp2, hk, if_neg hx.2, if_neg hy.2]
theorem argLoop_done (δ : List Char) (A d B : Mem) (free q i : Nat) (t0 : List Char)
    (f : Frame) (out : List Event)
    (hd : ∀ ch ∈ d, δ.contains ch = true ∧ ch ≠ NUL)
    (hm : f.mem = A ++ d ++ NUL :: B) (hq : cstr f.mem q = t0) (hfree : 0 < free) :
    ∃ f1, argLoop δ free (some q) A.length i f out = some (i + 1, f1, out ++ [argLine t0])
      ∧ f1.mem = f.mem ∧ Filled f f1 i [t0] := by
  obtain ⟨n, rfl⟩ : ∃ n, free = n + 1 := ⟨free - 1, by omega⟩
  have hs := strtok_none δ A d B hd
  refine ⟨{ f with args := store f.args i (.input q)
                   full_command := store f.full_command (i + 1) (.input q) }, ?_, rfl, ?_⟩
  · simp only [argLoop, hm, hs, argLine, ← hq]
  · refine ⟨rfl, rfl, rfl, ?_, ?_, ?_, ?_, ?_⟩
    · intro j hj; simp [store]; omega
    · intro j hj; simp [store] at hj ⊢; omega
    · intro j hj; simp [store]; omega
    · intro j hj; simp [store] at hj ⊢; omega
    · intro k t hk
      cases k with
      | zero =>
        simp only [List.getElem?_cons_zero, Option.some.injEq] at hk
        exact ⟨q, by simp [store], by simp [store], hk ▸ hq⟩
      | succ k => simp at hk


theorem Filled_step (f f1 : Frame) (m : Mem) (i q : Nat) (t0 : List Char)
    (toks : List (List Char))
    (h : Filled { f with mem := m
                         args := store f.args i (.input q)
                         full_command := store f.full_command (i + 1) (.input q) }
      f1 (i + 1) toks)
    (hq : cstr f1.mem q = t0) : Filled f f1 i (t0 :: toks) := by
  obtain ⟨h1, h2, h3, h4, h5, h6, h7, h8⟩ := h
  refine ⟨h1, h2, h3, ?_, ?_, ?_, ?_, ?_⟩
  · intro j hj
    rw [h4 j (by omega)]
    simp [store]; omega
  · intro j hj
    simp only [List.length_cons] at hj
    rw [h5 j (by omega)]
    simp [store]; omega
  · intro j hj
    rw [h6 j (by omega)]
    simp [store]; omega
  · intro j hj
    simp only [List.length_cons] at hj
    rw [h7 j (by omega)]
    simp [store]; omega
  · intro k t hk
    cases k with
    | zero =>
      simp only [List.getElem?_cons_zero, Option.some.injEq] at hk
      refine ⟨q, ?_, ?_, hk ▸ hq⟩
      · rw [Nat.add_zero, h4 i (by omega)]; simp [store]
      · rw [Nat.add_zero, h6 (i + 1) (by omega)]; simp [store]
    | succ k =>
      simp only [List.getElem?_cons_succ] at hk
      obtain ⟨p, hp1, hp2, hp3⟩ := h8 k t hk
      refine ⟨p, ?_, ?_, hp3⟩
      · rw [← hp1]; congr 1; omega
      · rw [← hp2]; congr 1; omega

theorem argLoop_layout (δ : List Char) {r : List Char} {ts : List (List Char)}
    (hL : Layout r ts) :
    ∀ (A B : Mem) (free q i : Nat) (t0 : List Char) (f : Frame) (out : List Event),
      (∀ ch ∈ r, δ.contains ch = isspace ch) → (∀ ch ∈ r, ch ≠ NUL) →
      f.mem = A ++ r ++ NUL :: B →
      (∀ r1 : List Char, r1.length = r.length → cstr (A ++ r1 ++ NUL :: B) q = t0) →
      ts.length < free →
      ∃ f1 r1, argLoop δ free (some q) A.length i f out
                 = some (i + 1 + ts.length, f1, out ++ argLine t0 :: ts.map argLine)
        ∧ f1.mem = A ++ r1 ++ NUL :: B ∧ r1.length = r.length
        ∧ Filled f f1 i (t0 :: ts) := by
  induction hL with
  | done d hd =>
    intro A B free q i t0 f out hδ hN hm hq hfree
    have hq0 : cstr f.mem q = t0 := by rw [hm]; exact hq d rfl
    obtain ⟨f1, h1, h2, h3⟩ := argLoop_done δ A d B free q i t0 f out
      (fun ch h => ⟨by rw [hδ ch h]; exact hd ch h, hN ch h⟩) hm hq0 (by omega)
    exact ⟨f1, d, by simpa using h1, by rw [h2, hm], rfl, h3⟩
  | last d t hd ht hne =>
    intro A B free q i t0 f out hδ hN hm hq hfree
    have hq0 : cstr f.mem q = t0 := by rw [hm]; exact hq _ rfl
    obtain ⟨n, rfl⟩ : ∃ n, free = n + 1 := ⟨free - 1, by omega⟩
    have hd' : ∀ ch ∈ d, δ.contains ch = true ∧ ch ≠ NUL := fun ch h =>
      ⟨by rw [hδ ch (by simp [h])]; exact hd ch h, hN ch (by simp [h])⟩
    have ht' : ∀ ch ∈ t, δ.contains ch = false ∧ ch ≠ NUL := fun ch h =>
      ⟨by rw [hδ ch (by simp [h])]; exact ht ch h, hN ch (by simp [h])⟩
    have hs := strtok_last δ A d t B hd' ht' hne
    have hm' : f.mem = A ++ d ++ t ++ NUL :: B := by rw [hm]; simp
    obtain ⟨f1, h1, h2, h3⟩ := argLoop_done δ (A ++ d ++ t) [] B n (A.length + d.length) (i + 1) t
      { f with args := store f.args i (.input q)
               full_command := store f.full_command (i + 1) (.input q) }
      (out ++ [argLine t0]) (by simp) (by simp [hm'])
      (by
        show cstr f.mem _ = t
        rw [hm']
        have := cstr_append (A ++ d) t B (fun ch h => (ht' ch h).2)
        simpa using this)
      (by simp at hfree; omega)
    refine ⟨f1, d ++ t, ?_, by rw [h2]; exact hm, rfl, ?_⟩
    · simp only [argLoop, hm', hs]
      rw [← hm', hq0]
      simp only [List.length_append, ← Nat.add_assoc] at h1
      simpa [argLine, Nat.add_assoc] using h1
    · exact Filled_step f f1 f.mem i q t0 [t] h3 (by rw [h2]; exact hq0)
  | more d t y r ts hd ht hne hy h ih =>
    intro A B free q i t0 f out hδ hN hm hq hfree
    have hq0 : cstr f.mem q = t0 := by rw [hm]; exact hq _ rfl
    obtain ⟨n, rfl⟩ : ∃ n, free = n + 1 := ⟨free - 1, by omega⟩
    have hd' : ∀ ch ∈ d, δ.contains ch = true ∧ ch ≠ NUL := fun ch h =>
      ⟨by rw [hδ ch (by simp [h])]; exact hd ch h, hN ch (by simp [h])⟩
    have ht' : ∀ ch ∈ t, δ.contains ch = false ∧ ch ≠ NUL := fun ch h =>
      ⟨by rw [hδ ch (by simp [h])]; exact ht ch h, hN ch (by simp [h])⟩
    have hy' : δ.contains y = true ∧ y ≠ NUL :=
      ⟨by rw [hδ y (by simp)]; exact hy, hN y (by simp)⟩
    have hr' : ∀ ch ∈ r, ch ≠ NUL := fun ch h => hN ch (by simp [h])
    have hs := strtok_more δ A d t y r B hd' ht' hne hy' hr'
    have hm' : f.mem = A ++ d ++ t ++ y :: r ++ NUL :: B := by rw [hm]; simp
    obtain ⟨f1, r1, h1, h2, h3, h4⟩ := ih (A ++ d ++ t ++ [NUL]) B n (A.length + d.length)
      (i + 1) t
      { f with mem := A ++ d ++ t ++ NUL :: r ++ NUL :: B
               args := store f.args i (.input q)
               full_command := store f.full_command (i + 1) (.input q) }
      (out ++ [argLine t0]) (fun ch h => hδ ch (by simp [h])) hr' (by simp)
      (by
        intro r1 _
        have := cstr_append (A ++ d) t (r1 ++ NUL :: B) (fun ch h => (ht' ch h).2)
        simpa using this)
      (by simp at hfree; omega)
    refine ⟨f1, d ++ t ++ NUL :: r1, ?_, by rw [h2]; simp, by simp [h3], ?_⟩
    · simp only [argLoop, hm', hs]
      rw [← hm', hq0]
      simp only [List.length_append, List.length_singleton, ← Nat.add_assoc] at h1
      simp only [List.length_cons, List.map_cons]
      rw [show i + 1 + (ts.length + 1) = i + 1 + 1 + ts.length by omega]
      simpa [argLine, Nat.add_assoc] using h1
    · refine Filled_step f f1 _ i q t0 (t :: ts) h4 ?_
      rw [h2]
      have := hq (d ++ t ++ NUL :: r1) (by simp [h3])
      simpa using this


/-! ## The tokens of the specification and the layout of a string -/

theorem specTokens_ws_append (d l : List Char) (hd : ∀ ch ∈ d, isspace ch = true) :
    specTokens (d ++ l) = specTokens l := by
  induction d with
  | nil => rfl
  | cons x d ih =>
    have hx : isspace x = true := hd x (by simp)
    have := ih (fun ch h => hd ch (by simp [h]))
    simp only [specTokens] at this ⊢
    simp [List.splitOnP_cons, hx, this]

theorem splitOnP_append_ws (l w : List Char) (hw : ∀ ch ∈ w, isspace ch = true) :
    (l ++ w).splitOnP isspace = l.splitOnP isspace ++ List.replicate w.length [] := by
  induction l with
  | nil =>
    induction w with
    | nil => simp [List.splitOnP_nil]
    | cons x w ih =>
      have hx : isspace x = true := hw x (by simp)
      have := ih (fun ch h => hw ch (by simp [h]))
      simp only [List.nil_append] at this
      simp [List.splitOnP_cons, hx, this, List.splitOnP_nil, List.replicate_succ]
  | cons x l ih =>
    rw [List.cons_append, List.splitOnP_cons, List.splitOnP_cons, ih]
    by_cases hx : isspace x = true
    · simp [hx]
    · simp only [hx, if_false]
      obtain ⟨h, T, hT⟩ := List.exists_cons_of_ne_nil (List.splitOnP_ne_nil isspace l)
      simp [hT]

theorem specTokens_append_ws (l w : List Char) (hw : ∀ ch ∈ w, isspace ch = true) :
    specTokens (l ++ w) = specTokens l := by
  simp [specTokens, splitOnP_append_ws l w hw]

theorem specTokens_ws (d : List Char) (hd : ∀ ch ∈ d, isspace ch = true) :
    specTokens d = [] := by
  have := specTokens_ws_append d [] hd
  simpa [specTokens, List.splitOnP_nil] using this

theorem specTokens_single (t : List Char) (ht : ∀ ch ∈ t, isspace ch = false) (hne : t ≠ []) :
    specTokens t = [t] := by
  have := @List.splitOnP_eq_single _ isspace t (fun ch h => by simp [ht ch h])
  obtain ⟨x, t', rfl⟩ := List.exists_cons_of_ne_nil hne
  simp only [specTokens, this]
  simp

theorem specTokens_first (t : List Char) (y : Char) (r : List Char)
    (ht : ∀ ch ∈ t, isspace ch = false) (hne : t ≠ []) (hy : isspace y = true) :
    specTokens (t ++ y :: r) = t :: specTokens r := by
  have := @List.splitOnP_first _ isspace t (fun ch h => by simp [ht ch h]) y hy r
  obtain ⟨x, t', rfl⟩ := List.exists_cons_of_ne_nil hne
  simp only [specTokens, this]
  simp

theorem layout_specTokens : ∀ (n : Nat) (r : List Char), r.length ≤ n → Layout r (specTokens r) := by
  intro n
  induction n with
  | zero =>
    intro r hr
    have : r = [] := List.length_eq_zero.1 (by omega)
    subst this
    rw [specTokens_ws [] (by simp)]
    exact Layout.done [] (by simp)
  | succ n ih =>
    intro r hr
    have hsplit : r = r.takeWhile isspace ++ r.dropWhile isspace :=
      (List.takeWhile_append_dropWhile isspace r).symm
    have hd : ∀ ch ∈ r.takeWhile isspace, isspace ch = true :=
      fun ch h => List.mem_takeWhile_imp h
    cases h1 : r.dropWhile isspace with
    | nil =>
      have hall : ∀ ch ∈ r, isspace ch = true := List.dropWhile_eq_nil_iff.1 h1
      rw [specTokens_ws r hall]
      exact Layout.done r hall
    | cons x r1 =>
      have hx : isspace x = false := by
        have := List.head_dropWhile_not isspace r (by simp [h1])
        simpa [h1] using this
      have hsplit2 : x :: r1 = (x :: r1).takeWhile (fun c => !isspace c)
          ++ (x :: r1).dropWhile (fun c => !isspace c) :=
        (List.takeWhile_append_dropWhile _ _).symm
      have ht : ∀ ch ∈ (x :: r1).takeWhile (fun c => !isspace c), isspace ch = false := by
        intro ch h
        have := List.mem_takeWhile_imp h
        simpa using this
      have hne : (x :: r1).takeWhile (fun c => !isspace c) ≠ [] := by
        simp [List.takeWhile_cons, hx]
      cases h2 : (x :: r1).dropWhile (fun c => !isspace c) with
      | nil =>
        rw [h2, List.append_nil] at hsplit2
        rw [h1, hsplit2] at hsplit
        rw [hsplit, specTokens_ws_append _ _ hd, specTokens_single _ ht hne]
        exact Layout.last _ _ hd ht hne
      | cons y r3 =>
        have hy : isspace y = true := by
          have := List.head_dropWhile_not (fun c => !isspace c) (x :: r1) (by simp [h2])
          simpa [h2] using this
        rw [h2] at hsplit2
        rw [h1, hsplit2] at hsplit
        have hlen : r3.length ≤ n := by
          have := congrArg List.length hsplit
          simp only [List.length_append, List.length_cons] at this
          have h3 : 0 < ((x :: r1).takeWhile (fun c => !isspace c)).length :=
            List.length_pos.2 hne
          omega
        rw [hsplit, specTokens_ws_append _ _ hd, specTokens_first _ y r3 ht hne hy,
          ← List.append_assoc]
        exact Layout.more _ _ y r3 _ hd ht hne hy (ih r3 hlen)

theorem Layout.length_le {r : List Char} {ts : List (List Char)} (h : Layout r ts) :
    ts.length ≤ r.length := by
  induction h with
  | done d hd => simp
  | last d t hd ht hne =>
    have := List.length_pos.2 hne
    simp; omega
  | more d t y r ts hd ht hne hy h ih =>
    have := List.length_pos.2 hne
    simp; omega


/-! ## `trim` on a line and on a token -/

theorem rtrimScan_stop (X : Mem) (x : Char) (W : Mem) (hx : isspace x = false)
    (hW : ∀ ch ∈ W, isspace ch = true) :
    ∀ Y : Mem, rtrimScan (X ++ x :: W ++ Y) (X.length + 1 + W.length) = some X.length := by
  induction W using List.reverseRecOn with
  | nil =>
    intro Y
    have hp : peek (X ++ x :: [] ++ Y) X.length = x := by
      have := peek_append X x Y
      simpa using this
    show rtrimScan _ (X.length + 1) = _
    simp only [rtrimScan, hp, hx]
    simp
  | append_singleton W w ih =>
    intro Y
    have hw : isspace w = true := hW w (by simp)
    have hp : peek (X ++ x :: (W ++ [w]) ++ Y) (X.length + 1 + W.length) = w := by
      have e : X.length + 1 + W.length = (X ++ x :: W).length := by simp; omega
      rw [e]
      have := peek_append (X ++ x :: W) w Y
      simpa [List.append_assoc] using this
    have hlen : X.length + 1 + (W ++ [w]).length = (X.length + 1 + W.length) + 1 := by
      simp [Nat.add_assoc]
    rw [hlen]
    simp only [rtrimScan, hp, hw, if_true]
    have := ih (fun ch h => hW ch (by simp [h])) (w :: Y)
    simpa [List.append_assoc] using this

theorem exists_trail (l : List Char) (h : ∃ ch ∈ l, isspace ch = false) :
    ∃ c0 x trail, l = c0 ++ x :: trail ∧ isspace x = false ∧
      ∀ ch ∈ trail, isspace ch = true := by
  induction l using List.reverseRecOn with
  | nil => simp at h
  | append_singleton l a ih =>
    by_cases ha : isspace a = true
    · obtain ⟨ch, hch, hws⟩ := h
      have hl : ∃ ch ∈ l, isspace ch = false := by
        rcases List.mem_append.1 hch with h1 | h1
        · exact ⟨ch, h1, hws⟩
        · simp at h1; subst h1; simp [ha] at hws
      obtain ⟨c0, x, trail, h1, h2, h3⟩ := ih hl
      refine ⟨c0, x, trail ++ [a], by simp [h1], h2, ?_⟩
      intro ch hch
      rcases List.mem_append.1 hch with h4 | h4
      · exact h3 ch h4
      · simp at h4; subst h4; exact ha
    · exact ⟨l, a, [], rfl, by simpa using ha, by simp⟩

theorem trim_token (A t B : Mem) (ht : ∀ ch ∈ t, isspace ch = false ∧ ch ≠ NUL)
    (hne : t ≠ []) :
    trim (A ++ t ++ NUL :: B) A.length = some (A.length, A ++ t ++ NUL :: B) := by
  obtain ⟨z, t1, hz⟩ := List.exists_cons_of_ne_nil hne
  have hl : ltrim (A ++ t ++ NUL :: B) A.length = A.length := by
    unfold ltrim
    rw [List.append_assoc, List.drop_left, hz]
    have : isspace z = false := (ht z (by simp [hz])).1
    simp [List.takeWhile_cons, this]
  obtain ⟨t0, x, trail, h1, h2, h3⟩ := exists_trail t ⟨z, by simp [hz], (ht z (by simp [hz])).1⟩
  have htr : trail = [] := by
    cases trail with
    | nil => rfl
    | cons w tr =>
      have h4 := (ht w (by simp [h1])).1
      simp [h3 w (by simp)] at h4
  subst htr
  have hc : strlen (A ++ t ++ NUL :: B) A.length = t.length := by
    unfold strlen
    rw [cstr_append A t B (fun ch h => (ht ch h).2)]
  have hscan : rtrimScan (A ++ t ++ NUL :: B) (A.length + t.length)
      = some (A.length + t0.length) := by
    have := rtrimScan_stop (A ++ t0) x [] h2 (by simp) (NUL :: B)
    have e : A.length + t.length = (A ++ t0).length + 1 + ([] : List Char).length := by
      simp [h1]; omega
    rw [e, h1]
    simpa [List.append_assoc] using this
  have hpoke : poke (A ++ t ++ NUL :: B) (A.length + t0.length + 1) NUL
      = A ++ t ++ NUL :: B := by
    have := poke_append (A ++ t0 ++ [x]) NUL NUL B
    have e : A.length + t0.length + 1 = (A ++ t0 ++ [x]).length := by simp; omega
    rw [e, h1]
    simpa [List.append_assoc] using this
  simp only [trim, rtrim, hl, hc, hscan, hpoke]


theorem trim_line (P body Q : Mem) (hN : ∀ ch ∈ body, ch ≠ NUL)
    (hne : ∃ ch ∈ body, isspace ch = false) :
    ∃ lead core Z,
      trim (P ++ body ++ NUL :: Q) P.length
        = some (P.length + lead.length, P ++ lead ++ core ++ NUL :: Z)
      ∧ specTokens body = specTokens core ∧ (∀ ch ∈ core, ch ∈ body)
      ∧ (∃ ch ∈ core, isspace ch = false) ∧ core.length ≤ body.length := by
  have hsplit : body = body.takeWhile isspace ++ body.dropWhile isspace :=
    (List.takeWhile_append_dropWhile isspace body).symm
  have hlead : ∀ ch ∈ body.takeWhile isspace, isspace ch = true :=
    fun ch h => List.mem_takeWhile_imp h
  generalize body.takeWhile isspace = lead at hsplit hlead
  have hrest : ∃ ch ∈ body.dropWhile isspace, isspace ch = false := by
    obtain ⟨ch, hch, hws⟩ := hne
    rw [hsplit] at hch
    rcases List.mem_append.1 hch with h | h
    · simp [hlead ch h] at hws
    · exact ⟨ch, h, hws⟩
  have hz : ∃ z r1, body.dropWhile isspace = z :: r1 ∧ isspace z = false := by
    cases h1 : body.dropWhile isspace with
    | nil => rw [h1] at hrest; simp at hrest
    | cons z r1 =>
      refine ⟨z, r1, rfl, ?_⟩
      have := List.head_dropWhile_not isspace body (by simp [h1])
      simpa [h1] using this
  generalize body.dropWhile isspace = rest at hsplit hrest hz
  obtain ⟨z, r1, hzr, hzs⟩ := hz
  obtain ⟨c0, x, trail, h1, h2, h3⟩ := exists_trail rest hrest
  have hNrest : ∀ ch ∈ rest, ch ≠ NUL := fun ch h => hN ch (by rw [hsplit]; simp [h])
  obtain ⟨y, Z, hyZ⟩ : ∃ y Z, trail ++ NUL :: Q = y :: Z := by
    cases trail with
    | nil => exact ⟨NUL, Q, rfl⟩
    | cons w tr => exact ⟨w, tr ++ NUL :: Q, rfl⟩
  have hl : ltrim (P ++ body ++ NUL :: Q) P.length = P.length + lead.length := by
    unfold ltrim
    rw [List.append_assoc, List.drop_left, hsplit, hzr, List.append_assoc, List.cons_append,
      takeWhile_stop lead z _ hlead hzs]
  have hc : strlen (P ++ body ++ NUL :: Q) (P.length + lead.length) = rest.length := by
    unfold strlen
    have := cstr_append (P ++ lead) rest Q hNrest
    rw [hsplit]
    simp only [List.length_append, List.append_assoc] at this ⊢
    rw [this]
  have hscan : rtrimScan (P ++ body ++ NUL :: Q) (P.length + lead.length + rest.length)
      = some (P.length + lead.length + c0.length) := by
    have := rtrimScan_stop (P ++ lead ++ c0) x trail h2 h3 (NUL :: Q)
    have e : P.length + lead.length + rest.length
        = (P ++ lead ++ c0).length + 1 + trail.length := by
      simp [h1]; omega
    rw [e, hsplit, h1]
    simpa [List.append_assoc, Nat.add_assoc] using this
  have hpoke : poke (P ++ body ++ NUL :: Q) (P.length + lead.length + c0.length + 1) NUL
      = P ++ lead ++ (c0 ++ [x]) ++ NUL :: Z := by
    have := poke_append (P ++ lead ++ (c0 ++ [x])) y NUL Z
    have e : P.length + lead.length + c0.length + 1 = (P ++ lead ++ (c0 ++ [x])).length := by
      simp; omega
    rw [e, ← this, ← hyZ, hsplit, h1]
    simp [List.append_assoc]
  refine ⟨lead, c0 ++ [x], Z, ?_, ?_, ?_, ⟨x, by simp, h2⟩, ?_⟩
  · simp only [trim, rtrim, hl, hc, hscan, hpoke]
  · rw [hsplit, specTokens_ws_append lead rest hlead, h1]
    have := specTokens_append_ws (c0 ++ [x]) trail h3
    simpa [List.append_assoc] using this
  · intro ch hch
    rw [hsplit, h1]
    simp only [List.mem_append, List.mem_singleton] at hch
    simp only [List.mem_append, List.mem_cons]
    tauto
  · rw [hsplit, h1]; simp; omega

/-- The line read stores the line at `input_char`. -/
theorem fgets_shape (n : Nat) (m : Mem) (base : Nat) (s : List Char)
    (hb : base ≤ m.length) (hs : s.length ≤ n - 1) :
    ∃ P Q, fgets n m base s = P ++ s ++ NUL :: Q ∧ P.length = base :=
  ⟨m.take base, m.drop (base + s.length + 1), by
    simp [fgets, List.take_of_length_le hs], by simp [hb]⟩

/-- The newline strip `input_char[strcspn(input_char, "\n")] = 0` cuts the
string at the newline. -/
theorem strip_newline (P body nl Q : Mem) (hnl : nl = [] ∨ nl = ['\n'])
    (hN : ∀ ch ∈ body, ch ≠ NUL ∧ ch ≠ '\n') :
    ∃ Q1, poke (P ++ body ++ nl ++ NUL :: Q)
        (P.length + strcspn (P ++ body ++ nl ++ NUL :: Q) P.length ['\n']) NUL
      = P ++ body ++ NUL :: Q1 := by
  have hb : ∀ ch ∈ body, (fun c => !(List.contains ['\n'] c)) ch = true := by
    intro ch h
    simpa using (hN ch h).2
  rcases hnl with rfl | rfl
  · have hc : cstr (P ++ body ++ [] ++ NUL :: Q) P.length = body := by
      simpa using cstr_append P body Q (fun ch h => (hN ch h).1)
    refine ⟨Q, ?_⟩
    unfold strcspn
    rw [hc, takeWhile_all body hb]
    have := poke_append (P ++ body) NUL NUL Q
    simpa using this
  · have hc : cstr (P ++ body ++ ['\n'] ++ NUL :: Q) P.length = body ++ ['\n'] := by
      have := cstr_append P (body ++ ['\n']) Q (by
        intro ch h
        rcases List.mem_append.1 h with h | h
        · exact (hN ch h).1
        · simp at h; subst h; decide)
      simpa [List.append_assoc] using this
    refine ⟨NUL :: Q, ?_⟩
    unfold strcspn
    rw [hc, takeWhile_stop body '\n' [] hb (by decide)]
    have := poke_append (P ++ body) '\n' NUL (NUL :: Q)
    simpa using this
/-! ## The tokenizer on a line -/

theorem strtokLoop_layout (δ : List Char) {r : List Char} {ts : List (List Char)}
    (hL : Layout r ts) (A B : Mem) (free i : Nat) (f : Frame) (out : List Event)
    (hδ : ∀ ch ∈ r, δ.contains ch = isspace ch) (hN : ∀ ch ∈ r, ch ≠ NUL)
    (hm : f.mem = A ++ r ++ NUL :: B) (hfree : ts.length ≤ free) :
    ∃ f1 r1, argLoop δ free (strtok δ f.mem A.length).1 (strtok δ f.mem A.length).2.2 i
          { f with mem := (strtok δ f.mem A.length).2.1 } out
        = some (i + ts.length, f1, out ++ ts.map argLine)
      ∧ f1.mem = A ++ r1 ++ NUL :: B ∧ r1.length = r.length ∧ Filled f f1 i ts := by
  cases hL with
  | done d hd =>
    have hs := strtok_none δ A r B (fun ch h => ⟨by rw [hδ ch h]; exact hd ch h, hN ch h⟩)
    refine ⟨f, r, ?_, hm, rfl, ?_⟩
    · rw [hm, hs]
      simp only [argLoop, ← hm]
      simp
    · exact ⟨rfl, rfl, rfl, fun _ _ => rfl, fun _ _ => rfl, fun _ _ => rfl, fun _ _ => rfl,
        fun k t hk => by simp at hk⟩
  | last d t hd ht hne =>
    have hd' : ∀ ch ∈ d, δ.contains ch = true ∧ ch ≠ NUL := fun ch h =>
      ⟨by rw [hδ ch (by simp [h])]; exact hd ch h, hN ch (by simp [h])⟩
    have ht' : ∀ ch ∈ t, δ.contains ch = false ∧ ch ≠ NUL := fun ch h =>
      ⟨by rw [hδ ch (by simp [h])]; exact ht ch h, hN ch (by simp [h])⟩
    have hs := strtok_last δ A d t B hd' ht' hne
    have hm' : f.mem = A ++ d ++ t ++ NUL :: B := by rw [hm]; simp
    obtain ⟨f1, r1, h1, h2, h3, h4⟩ := argLoop_layout δ (Layout.done [] (by simp))
      (A ++ d ++ t) B free (A.length + d.length) i t f out (by simp) (by simp)
      (by simp [hm'])
      (by
        intro r1 hr1
        have : r1 = [] := List.length_eq_zero.1 (by simpa using hr1)
        subst this
        have := cstr_append (A ++ d) t B (fun ch h => (ht' ch h).2)
        simpa using this)
      (by simpa using hfree)
    have hr1 : r1 = [] := List.length_eq_zero.1 (by simpa using h3)
    subst hr1
    refine ⟨f1, d ++ t, ?_, by rw [h2]; simp, rfl, h4⟩
    rw [hm', hs]
    simp only [← hm']
    simp only [List.length_append, ← Nat.add_assoc] at h1
    simpa [Nat.add_assoc] using h1
  | more d t y r ts hd ht hne hy h =>
    have hd' : ∀ ch ∈ d, δ.contains ch = true ∧ ch ≠ NUL := fun ch h =>
      ⟨by rw [hδ ch (by simp [h])]; exact hd ch h, hN ch (by simp [h])⟩
    have ht' : ∀ ch ∈ t, δ.contains ch = false ∧ ch ≠ NUL := fun ch h =>
      ⟨by rw [hδ ch (by simp [h])]; exact ht ch h, hN ch (by simp [h])⟩
    have hy' : δ.contains y = true ∧ y ≠ NUL :=
      ⟨by rw [hδ y (by simp)]; exact hy, hN y (by simp)⟩
    have hr' : ∀ ch ∈ r, ch ≠ NUL := fun ch h => hN ch (by simp [h])
    have hs := strtok_more δ A d t y r B hd' ht' hne hy' hr'
    have hm' : f.mem = A ++ d ++ t ++ y :: r ++ NUL :: B := by rw [hm]; simp
    obtain ⟨f1, r1, h1, h2, h3, h4⟩ := argLoop_layout δ h
      (A ++ d ++ t ++ [NUL]) B free (A.length + d.length) i t
      { f with mem := A ++ d ++ t ++ NUL :: r ++ NUL :: B } out
      (fun ch h => hδ ch (by simp [h])) hr' (by simp)
      (by
        intro r1 _
        have := cstr_append (A ++ d) t (r1 ++ NUL :: B) (fun ch h => (ht' ch h).2)
        simpa using this)
      (by simpa using hfree)
    refine ⟨f1, d ++ t ++ NUL :: r1, ?_, by rw [h2]; simp, by simp [h3], h4⟩
    rw [hm', hs]
    simp only [List.length_append, List.length_singleton, ← Nat.add_assoc] at h1
    simp only [List.length_cons, List.map_cons]
    rw [show i + (ts.length + 1) = i + 1 + ts.length by omega]
    exact h1


/-- The tokenizer on a frame whose `input_char` holds a line with a visible
character: the command is the first token of the specification, the counter
ends at the number of the others, and `args`, `full_command` point to them. -/
theorem tokenize_line (c : Consts) (f : Frame) (P body nl Q : Mem)
    (hm : f.mem = P ++ body ++ nl ++ NUL :: Q) (hP : P.length = f.base)
    (hnl : nl = [] ∨ nl = ['\n'])
    (hN : ∀ ch ∈ body, ch ≠ NUL ∧ ch ≠ '\n')
    (hδ : ∀ ch ∈ body, c.SPACE_DELIMETER.contains ch = isspace ch)
    (hne : ∃ ch ∈ body, isspace ch = false)
    (hlen : body.length ≤ c.ARG_MAX) :
    ∃ t ts f1, specTokens body = t :: ts ∧
      tokenize c f = some (ts.length, f1, commandLine t :: ts.map argLine) ∧
      Filled { f with command := t, full_command := store f.full_command 0 .command }
        f1 0 ts := by
  obtain ⟨Q1, hstrip⟩ := strip_newline P body nl Q hnl hN
  obtain ⟨lead, core, Z, htrim, hspec, hsub, hcne, hclen⟩ :=
    trim_line P body Q1 (fun ch h => (hN ch h).1) hne
  have hL := layout_specTokens core.length core (le_refl _)
  rw [← hspec] at hL
  have hδc : ∀ ch ∈ core, c.SPACE_DELIMETER.contains ch = isspace ch :=
    fun ch h => hδ ch (hsub ch h)
  have hNc : ∀ ch ∈ core, ch ≠ NUL := fun ch h => (hN ch (hsub ch h)).1
  have e0 : poke f.mem (f.base + strcspn f.mem f.base ['\n']) NUL = P ++ body ++ NUL :: Q1 := by
    rw [← hP, hm]; exact hstrip
  have e1 : trim (P ++ body ++ NUL :: Q1) f.base
      = some (P.length + lead.length, P ++ lead ++ core ++ NUL :: Z) := by
    rw [← hP]; exact htrim
  simp only [tokenize, e0, e1]
  generalize specTokens body = toks at hL
  cases hL with
  | done d hd =>
    obtain ⟨ch, h1, h2⟩ := hcne
    simp [hd ch h1] at h2
  | last d t hd ht hne2 =>
    have hd' : ∀ ch ∈ d, c.SPACE_DELIMETER.contains ch = true ∧ ch ≠ NUL := fun ch h =>
      ⟨by rw [hδc ch (by simp [h])]; exact hd ch h, hNc ch (by simp [h])⟩
    have ht' : ∀ ch ∈ t, c.SPACE_DELIMETER.contains ch = false ∧ ch ≠ NUL := fun ch h =>
      ⟨by rw [hδc ch (by simp [h])]; exact ht ch h, hNc ch (by simp [h])⟩
    have hs := strtok_last c.SPACE_DELIMETER (P ++ lead) d t Z hd' ht' hne2
    have htt := trim_token (P ++ lead ++ d) t Z
      (fun ch h => ⟨ht ch h, (ht' ch h).2⟩) hne2
    have hct := cstr_append (P ++ lead ++ d) t Z (fun ch h => (ht' ch h).2)
    have hs2 := strtok_none c.SPACE_DELIMETER (P ++ lead ++ d ++ t) [] Z (by simp)
    refine ⟨t, [], { f with mem := P ++ lead ++ d ++ t ++ NUL :: Z
                            command := t
                            full_command := store f.full_command 0 .command }, rfl, ?_, ?_⟩
    · simp only [List.append_assoc, List.length_append, List.nil_append, List.length_nil,
        Nat.add_assoc, Nat.add_zero, List.append_nil, commandLine] at hs htt hct hs2 ⊢
      simp only [hs, htt, hct, hs2, argLoop, List.map_nil]
    · exact ⟨rfl, rfl, rfl, fun _ _ => rfl, fun _ _ => rfl, fun _ _ => rfl, fun _ _ => rfl,
        fun k t hk => by simp at hk⟩
  | more d t y r ts hd ht hne2 hy h =>
    have hd' : ∀ ch ∈ d, c.SPACE_DELIMETER.contains ch = true ∧ ch ≠ NUL := fun ch h =>
      ⟨by rw [hδc ch (by simp [h])]; exact hd ch h, hNc ch (by simp [h])⟩
    have ht' : ∀ ch ∈ t, c.SPACE_DELIMETER.contains ch = false ∧ ch ≠ NUL := fun ch h =>
      ⟨by rw [hδc ch (by simp [h])]; exact ht ch h, hNc ch (by simp [h])⟩
    have hy' : c.SPACE_DELIMETER.contains y = true ∧ y ≠ NUL :=
      ⟨by rw [hδc y (by simp)]; exact hy, hNc y (by simp)⟩
    have hr' : ∀ ch ∈ r, ch ≠ NUL := fun ch h => hNc ch (by simp [h])
    have hs := strtok_more c.SPACE_DELIMETER (P ++ lead) d t y r Z hd' ht' hne2 hy' hr'
    have htt := trim_token (P ++ lead ++ d) t (r ++ NUL :: Z)
      (fun ch h => ⟨ht ch h, (ht' ch h).2⟩) hne2
    have hct := cstr_append (P ++ lead ++ d) t (r ++ NUL :: Z) (fun ch h => (ht' ch h).2)
    have hts : ts.length ≤ c.ARG_MAX - 1 := by
      have h1 := h.length_le
      simp only [List.length_append, List.length_cons] at hclen
      omega
    obtain ⟨f1, r1, h1, h2, h3, h4⟩ := strtokLoop_layout c.SPACE_DELIMETER h
      (P ++ lead ++ d ++ t ++ [NUL]) Z (c.ARG_MAX - 1) 0
      { f with mem := P ++ lead ++ d ++ t ++ NUL :: r ++ NUL :: Z
               command := t
               full_command := store f.full_command 0 .command }
      [commandLine t] (fun ch h => hδc ch (by simp [h])) hr' (by simp) hts
    refine ⟨t, ts, f1, rfl, ?_, ?_⟩
    · simp only [List.append_assoc, List.length_append, List.nil_append, List.length_nil,
        List.cons_append, List.singleton_append, List.length_singleton, List.length_cons,
        Nat.add_assoc, Nat.add_zero, Nat.zero_add, List.append_nil] at hs htt hct h1 ⊢
      simp only [hs, htt, hct, commandLine]
      exact h1
    · exact h4


theorem Layout.tokens_visible {r : List Char} {ts : List (List Char)} (h : Layout r ts) :
    ∀ a ∈ ts, a ≠ [] ∧ ∀ ch ∈ a, isspace ch = false := by
  induction h with
  | done d hd => simp
  | last d t hd ht hne => simpa using ⟨hne, ht⟩
  | more d t y r ts hd ht hne hy h ih =>
    intro a ha
    rcases List.mem_cons.1 ha with rfl | ha
    · exact ⟨hne, ht⟩
    · exact ih a ha

/-- A pass that reads a line with a visible character: the events are the
prompt, the read, the tokenizer's lines and what the dispatcher does on the
frame the tokenizer leaves. -/
theorem iteration_line (c : Consts) (w : World) (f : Frame) (body nl : List Char)
    (hflag : f.sigint_received = false)
    (hread : w.read = .line (body ++ nl)) (hnl : nl = [] ∨ nl = ['\n'])
    (hN : ∀ ch ∈ body, ch ≠ NUL ∧ ch ≠ '\n')
    (hδ : ∀ ch ∈ body, c.SPACE_DELIMETER.contains ch = isspace ch)
    (hvis : ∃ ch ∈ body, isspace ch = false)
    (hfit : (body ++ nl).length ≤ c.ARG_MAX - 1) (hbase : f.base ≤ f.mem.length) :
    ∃ t ts f1, specTokens body = t :: ts ∧
      iteration c w f
        = (.prompt :: .fgets :: commandLine t :: ts.map argLine ++ (dispatch c w f1).1,
           (dispatch c w f1).2, f1) ∧
      Filled { f with sigint_received := w.sigint
                      command := t
                      full_command := store f.full_command 0 .command }
        f1 0 ts := by
  obtain ⟨P, Q, hfg, hP⟩ := fgets_shape c.ARG_MAX f.mem f.base (body ++ nl) hbase hfit
  have hlen : body.length ≤ c.ARG_MAX := by
    simp only [List.length_append] at hfit; omega
  obtain ⟨t, ts, f1, h1, h2, h3⟩ := tokenize_line c
    { f with mem := fgets c.ARG_MAX f.mem f.base (body ++ nl), sigint_received := w.sigint }
    P body nl Q (by simp [hfg]) hP hnl hN hδ hvis hlen
  refine ⟨t, ts, f1, h1, ?_, ?_⟩
  · simp only [iteration, hflag, readLine, hread, h2]
    simp
  · exact h3



/-! ## The claims -/

/-- C1. For every line the reader returns that has a character which is no
white space, the tokenizer of `main` (newline strip, `trim`, repeated `strtok`)
leaves in `command` the first maximal run of non-white-space characters of the
line, stops its counter at the number of the other runs, and leaves in `args`
(and in `full_command` from index one) pointers to exactly these runs, in
order; every run is non-empty and free of white space.  The delimiter string of
the missing `constants.h` is a parameter: the statement asks that a character
of the line is a delimiter exactly when it is white space, which holds for
every line when `SPACE_DELIMETER` is the white-space class, and for the lines
whose white space is blanks when it is `" "`. -/
theorem tokenizer_yields_runs (c : Consts) (w : World) (f : Frame) (body nl : List Char)
    (hread : w.read = .line (body ++ nl)) (hnl : nl = [] ∨ nl = ['\n'])
    (hN : ∀ ch ∈ body, ch ≠ NUL ∧ ch ≠ '\n')
    (hδ : ∀ ch ∈ body, c.SPACE_DELIMETER.contains ch = isspace ch)
    (hvis : ∃ ch ∈ body, isspace ch = false)
    (hfit : (body ++ nl).length ≤ c.ARG_MAX - 1) (hbase : f.base ≤ f.mem.length) :
    ∃ t ts f0 f1, readLine c w f = some f0 ∧ specTokens body = t :: ts ∧
      (∀ a ∈ t :: ts, a ≠ [] ∧ ∀ ch ∈ a, isspace ch = false) ∧
      tokenize c f0 = some (ts.length, f1, commandLine t :: ts.map argLine) ∧
      f1.command = t ∧ f1.full_command 0 = .command ∧
      ∀ k a, ts[k]? = some a →
        ∃ p, f1.args k = .input p ∧ f1.full_command (k + 1) = .input p ∧ cstr f1.mem p = a := by
  obtain ⟨P, Q, hfg, hP⟩ := fgets_shape c.ARG_MAX f.mem f.base (body ++ nl) hbase hfit
  have hlen : body.length ≤ c.ARG_MAX := by
    simp only [List.length_append] at hfit; omega
  obtain ⟨t, ts, f1, h1, h2, h3⟩ := tokenize_line c
    { f with mem := fgets c.ARG_MAX f.mem f.base (body ++ nl) }
    P body nl Q (by simp [hfg]) hP hnl hN hδ hvis hlen
  have hL := layout_specTokens body.length body (le_refl _)
  obtain ⟨-, a2, -, -, -, a6, -, a8⟩ := h3
  refine ⟨t, ts, _, f1, by simp only [readLine, hread], h1, ?_, h2, a2, ?_, ?_⟩
  · rw [← h1]; exact hL.tokens_visible
  · rw [a6 0 (by omega)]; simp [store]
  · intro k a hk
    obtain ⟨p, hp1, hp2, hp3⟩ := a8 k a hk
    exact ⟨p, by simpa using hp1, by simpa [Nat.add_comm] using hp2, hp3⟩

/-- C1, at the line of the specification: `"  echo   a   b "` gives the command
`echo` and the arguments `a`, `b`. -/
theorem tokenizer_yields_runs_witness :
    ∃ f1, tokenize linuxBlank
          { zeroFrame with mem := fgets 131072 zeroFrame.mem 1 "  echo   a   b \n".toList }
        = some (2, f1, [commandLine "echo".toList, argLine "a".toList, argLine "b".toList])
      ∧ f1.command = "echo".toList
      ∧ f1.str (f1.args 0) = some "a".toList ∧ f1.str (f1.args 1) = some "b".toList := by
  obtain ⟨t, ts, f0, f1, h0, hs, -, htok, hc, -, hargs⟩ :=
    tokenizer_yields_runs linuxBlank (lineWorld "  echo   a   b ") zeroFrame
      "  echo   a   b ".toList ['\n'] rfl (Or.inr rfl) (by decide) (by decide) (by decide)
      (by decide)
      (by show 1 ≤ (List.replicate (1 + 131072) NUL).length; rw [List.length_replicate]; decide)
  have hspec : specTokens "  echo   a   b ".toList = ["echo".toList, "a".toList, "b".toList] := by
    decide
  rw [hspec] at hs
  injection hs with ht hts
  subst ht hts
  have hf0 : f0 = { zeroFrame with mem := fgets 131072 zeroFrame.mem 1 "  echo   a   b \n".toList } := by
    have : readLine linuxBlank (lineWorld "  echo   a   b ") zeroFrame
        = some { zeroFrame with
                  mem := fgets 131072 zeroFrame.mem 1 "  echo   a   b \n".toList } := rfl
    rw [this] at h0
    exact (Option.some.inj h0).symm
  subst hf0
  obtain ⟨p0, hp0, -, hq0⟩ := hargs 0 "a".toList rfl
  obtain ⟨p1, hp1, -, hq1⟩ := hargs 1 "b".toList rfl
  exact ⟨f1, htok, hc.symm ▸ rfl, by rw [hp0, Frame.str, hq0], by rw [hp1, Frame.str, hq1]⟩


/-- C2, evaluated on the code, which departs from it.  A line of blanks after
`pwd` yields no token, `command` keeps the string `pwd` of the pass before and
the dispatcher calls `printWorkingDirectory` again; an empty first line on a
zeroed frame leaves `command` empty, which matches no builtin, so a child is
forked.  Both hold for either reading of the delimiter constant. -/
theorem blank_line_still_dispatches :
    (run linuxBlank [lineWorld "pwd", lineWorld "   "] zeroFrame).1
      = [[.prompt, .fgets, commandLine "pwd".toList, .printWorkingDirectory],
         [.prompt, .fgets, .printWorkingDirectory]]
    ∧ (run linuxSpaces [lineWorld "pwd", lineWorld "   "] zeroFrame).1
      = [[.prompt, .fgets, commandLine "pwd".toList, .printWorkingDirectory],
         [.prompt, .fgets, .printWorkingDirectory]]
    ∧ (run linuxBlank [lineWorld ""] zeroFrame).1 = [[.prompt, .fgets, .fork, .waitpid 4242]]
    ∧ (run linuxSpaces [lineWorld ""] zeroFrame).1
      = [[.prompt, .fgets, .fork, .waitpid 4242]] := by
  refine ⟨?_, ?_, ?_, ?_⟩ <;> decide

theorem fork_mem_launch (c : Consts) (w : World) (f : Frame) :
    Event.fork ∈ (launch c w f).1 := by
  unfold launch
  split_ifs <;> simp

theorem launch_no_collaborator (c : Consts) (w : World) (f : Frame) :
    ∀ e ∈ (launch c w f).1, e.isCollaborator = false := by
  unfold launch childTrace
  split_ifs <;> (try split) <;> simp [Event.isCollaborator, allocFailure]

/-- C3. The dispatcher takes a builtin branch exactly when `command` is,
character for character, one of `cd`, `quit`, `exit`, `clr`, `environ`, `dir`,
`echo`, `pwd`, `help`, `pause`: for these names no step of the launcher (fork,
setpgid, signal, execvp, waitpid) happens, and for every other name the
dispatcher is the launcher, a child is forked and no builtin collaborator is
called. -/
theorem dispatch_builtin_iff (c : Consts) (w : World) (f : Frame) :
    (f.command ∈ builtinNames ↔ ∀ e ∈ (dispatch c w f).1, e.isLaunch = false)
    ∧ (f.command ∉ builtinNames ↔ Event.fork ∈ (dispatch c w f).1)
    ∧ (f.command ∉ builtinNames →
        dispatch c w f = launch c w f ∧ ∀ e ∈ (dispatch c w f).1, e.isCollaborator = false) := by
  by_cases h : f.command ∈ builtinNames
  · have hno : ∀ e ∈ (dispatch c w f).1, e.isLaunch = false := by
      simp only [builtinNames, List.mem_cons, List.mem_singleton, List.not_mem_nil,
        or_false] at h
      unfold dispatch
      rcases h with h | h | h | h | h | h | h | h | h | h <;> rw [h] <;>
        simp only [reduceIte, reduceCtorEq, String.toList, List.cons.injEq, Char.reduceEq,
          and_true, and_false, or_true, or_false, false_or, true_or, if_true, if_false] <;>
        (try split) <;> (try split) <;> simp [Event.isLaunch, allocFailure]
    refine ⟨⟨fun _ => hno, fun _ => h⟩, ⟨fun h1 => absurd h h1, fun h1 => ?_⟩,
      fun h1 => absurd h h1⟩
    have := hno _ h1
    simp [Event.isLaunch] at this
  · have hd : dispatch c w f = launch c w f := by
      simp only [builtinNames, List.mem_cons, List.mem_singleton, List.not_mem_nil,
        or_false, not_or] at h
      obtain ⟨h1, h2, h3, h4, h5, h6, h7, h8, h9, h10⟩ := h
      simp only [dispatch, h1, h2, h3, h4, h5, h6, h7, h8, h9, h10, if_false, or_self]
    refine ⟨⟨fun h1 => absurd h1 h, fun h1 => ?_⟩, ⟨fun _ => hd ▸ fork_mem_launch c w f,
      fun _ => h⟩, fun _ => ⟨hd, hd ▸ launch_no_collaborator c w f⟩⟩
    have := h1 _ (hd ▸ fork_mem_launch c w f)
    simp [Event.isLaunch] at this


/-- C4, evaluated on the code, which departs from it.  After the line
`ls -l -a` the line `ls` is tokenized into the single token `ls`, but
`full_command[1]` and `full_command[2]` still hold the pointers of the pass
before and nothing stores a `NULL` after the last token: the child calls
`execvp` with the vector `ls`, the empty string, `-a`. -/
theorem execvp_vector_keeps_stale_entries :
    (run linuxBlank [lineWorld "ls -l -a", childWorld "ls"] zeroFrame).1
      = [[.prompt, .fgets, commandLine "ls".toList, argLine "-l".toList, argLine "-a".toList,
          .fork, .waitpid 4242],
         [.prompt, .fgets, commandLine "ls".toList, .fork, .setpgid, .signalDfl,
          .printf "full_command: --ls  -a --\n".toList,
          .execvp "ls".toList ["ls".toList, [], "-a".toList]]]
    ∧ (run linuxSpaces [lineWorld "ls -l -a", childWorld "ls"] zeroFrame).1
      = [[.prompt, .fgets, commandLine "ls".toList, argLine "-l".toList, argLine "-a".toList,
          .fork, .waitpid 4242],
         [.prompt, .fgets, commandLine "ls".toList, .fork, .setpgid, .signalDfl,
          .printf "full_command: --ls  -a --\n".toList,
          .execvp "ls".toList ["ls".toList, [], "-a".toList]]] := by
  refine ⟨?_, ?_⟩ <;> decide

/-- C5, evaluated on the code, which departs from it.  After `echo a b` the
line `cd x` finds the pointer of `b` still in `args[1]` and prints the usage
error instead of calling `changeDirectory`; after `cd /tmp` the line `cd` finds
the old pointer in `args[0]` and calls `changeDirectory` with the empty string
found there instead of the value of `HOME`. -/
theorem cd_reads_stale_args :
    (run linuxBlank [lineWorld "echo a b", lineWorld "cd x"] zeroFrame).1
      = [[.prompt, .fgets, commandLine "echo".toList, argLine "a".toList, argLine "b".toList,
          .echo "a b ".toList],
         [.prompt, .fgets, commandLine "cd".toList, argLine "x".toList,
          .printf "myshell: cd: too many arguments\n".toList]]
    ∧ (run linuxSpaces [lineWorld "echo a b", lineWorld "cd x"] zeroFrame).1
      = [[.prompt, .fgets, commandLine "echo".toList, argLine "a".toList, argLine "b".toList,
          .echo "a b ".toList],
         [.prompt, .fgets, commandLine "cd".toList, argLine "x".toList,
          .printf "myshell: cd: too many arguments\n".toList]]
    ∧ (run linuxBlank [lineWorld "cd /tmp", lineWorld "cd"] zeroFrame).1
      = [[.prompt, .fgets, commandLine "cd".toList, argLine "/tmp".toList,
          .changeDirectory (some "/tmp".toList)],
         [.prompt, .fgets, commandLine "cd".toList, .changeDirectory (some [])]]
    ∧ (run linuxSpaces [lineWorld "cd /tmp", lineWorld "cd"] zeroFrame).1
      = [[.prompt, .fgets, commandLine "cd".toList, argLine "/tmp".toList,
          .changeDirectory (some "/tmp".toList)],
         [.prompt, .fgets, commandLine "cd".toList, .changeDirectory (some [])]] := by
  refine ⟨?_, ?_, ?_, ?_⟩ <;> decide

/-- C6 fails as stated: on the lines `pwd x`, `help x`, `pause x` and
`environ x` the collaborator is called and no usage error is printed. -/
theorem argument_to_pwd_is_ignored :
    (run linuxBlank [lineWorld "pwd x", lineWorld "help x", lineWorld "pause x",
        lineWorld "environ x"] zeroFrame).1
      = [[.prompt, .fgets, commandLine "pwd".toList, argLine "x".toList, .printWorkingDirectory],
         [.prompt, .fgets, commandLine "help".toList, argLine "x".toList, .help],
         [.prompt, .fgets, commandLine "pause".toList, argLine "x".toList, .pauseShell],
         [.prompt, .fgets, commandLine "environ".toList, argLine "x".toList, .listEnviron]]
    ∧ (run linuxSpaces [lineWorld "pwd x", lineWorld "help x", lineWorld "pause x",
        lineWorld "environ x"] zeroFrame).1
      = [[.prompt, .fgets, commandLine "pwd".toList, argLine "x".toList, .printWorkingDirectory],
         [.prompt, .fgets, commandLine "help".toList, argLine "x".toList, .help],
         [.prompt, .fgets, commandLine "pause".toList, argLine "x".toList, .pauseShell],
         [.prompt, .fgets, commandLine "environ".toList, argLine "x".toList, .listEnviron]] := by
  refine ⟨?_, ?_⟩ <;> decide

/-- C7, evaluated on the code, which departs from it.  After `echo a b` the
line `dir /tmp` finds the pointer of `b` still in `args[1]` and prints the
usage message instead of calling `listFiles`, and the line `dir` finds
`args[0]` and `args[1]` both set and prints the usage message as well. -/
theorem dir_reads_stale_args :
    (run linuxBlank [lineWorld "echo a b", lineWorld "dir /tmp"] zeroFrame).1
      = [[.prompt, .fgets, commandLine "echo".toList, argLine "a".toList, argLine "b".toList,
          .echo "a b ".toList],
         [.prompt, .fgets, commandLine "dir".toList, argLine "/tmp".toList,
          .printf "Usage: dir [path]\n".toList]]
    ∧ (run linuxSpaces [lineWorld "echo a b", lineWorld "dir /tmp"] zeroFrame).1
      = [[.prompt, .fgets, commandLine "echo".toList, argLine "a".toList, argLine "b".toList,
          .echo "a b ".toList],
         [.prompt, .fgets, commandLine "dir".toList, argLine "/tmp".toList,
          .printf "Usage: dir [path]\n".toList]]
    ∧ (run linuxBlank [lineWorld "echo a b", lineWorld "dir"] zeroFrame).1
      = [[.prompt, .fgets, commandLine "echo".toList, argLine "a".toList, argLine "b".toList,
          .echo "a b ".toList],
         [.prompt, .fgets, commandLine "dir".toList, .printf "Usage: dir [path]\n".toList]] := by
  refine ⟨?_, ?_, ?_⟩ <;> decide

/-- C8, evaluated on the code, which departs from it.  `concatenateArgs` puts a
blank after every argument, the last one included: on the `NULL`-terminated
array `a`, `b` it returns `"a b "`, and the line `echo a b` on a zeroed frame
hands `"a b "` to `echo`. -/
theorem concatenateArgs_trailing_blank :
    concatenateArgs 131072 true (fun i => [some "a".toList, some "b".toList].getD i none)
      = some "a b ".toList
    ∧ (run linuxBlank [lineWorld "echo a b"] zeroFrame).1
      = [[.prompt, .fgets, commandLine "echo".toList, argLine "a".toList, argLine "b".toList,
          .echo "a b ".toList]]
    ∧ (run linuxSpaces [lineWorld "echo a b"] zeroFrame).1
      = [[.prompt, .fgets, commandLine "echo".toList, argLine "a".toList, argLine "b".toList,
          .echo "a b ".toList]] := by
  refine ⟨?_, ?_, ?_⟩ <;> decide

/-- C9, evaluated on the code, which departs from it.  The pass that processes
`cd x` calls `changeDirectory` with `x` on a zeroed frame and prints the usage
error on the frame left by the line `echo a b`. -/
theorem pass_depends_on_earlier_lines :
    (iteration linuxBlank (lineWorld "cd x") zeroFrame).1
      = [.prompt, .fgets, commandLine "cd".toList, argLine "x".toList,
         .changeDirectory (some "x".toList)]
    ∧ (iteration linuxBlank (lineWorld "cd x")
        (run linuxBlank [lineWorld "echo a b"] zeroFrame).2.2).1
      = [.prompt, .fgets, commandLine "cd".toList, argLine "x".toList,
         .printf "myshell: cd: too many arguments\n".toList]
    ∧ (iteration linuxSpaces (lineWorld "cd x") zeroFrame).1
      = [.prompt, .fgets, commandLine "cd".toList, argLine "x".toList,
         .changeDirectory (some "x".toList)]
    ∧ (iteration linuxSpaces (lineWorld "cd x")
        (run linuxSpaces [lineWorld "echo a b"] zeroFrame).2.2).1
      = [.prompt, .fgets, commandLine "cd".toList, argLine "x".toList,
         .printf "myshell: cd: too many arguments\n".toList] := by
  refine ⟨?_, ?_, ?_, ?_⟩ <;> decide

/-- C10. A pass that starts with `sigint_received` set clears the flag,
prints one newline and goes back to the top of the loop: no prompt, no read, no
token, no dispatch.  A pass that starts with the flag clear begins with the
prompt and the line read. -/
theorem interrupt_flag_checked_first (c : Consts) (w : World) (f : Frame) :
    (f.sigint_received = true →
      iteration c w f = ([.printf ['\n']], .next, { f with sigint_received := false }))
    ∧ (f.sigint_received = false →
      ∃ rest, (iteration c w f).1 = .prompt :: .fgets :: rest) := by
  constructor
  · intro h
    simp [iteration, h]
  · intro h
    simp only [iteration, h, Bool.false_eq_true, if_false]
    cases readLine c w { f with sigint_received := w.sigint } with
    | none => exact ⟨_, rfl⟩
    | some f1 =>
      dsimp only
      cases tokenize c f1 with
      | none => exact ⟨_, rfl⟩
      | some r => exact ⟨_, rfl⟩


theorem visible_of_specTokens (body : List Char) (t : List Char) (ts : List (List Char))
    (h : specTokens body = t :: ts) : ∃ ch ∈ body, isspace ch = false := by
  by_contra hno
  have hall : ∀ ch ∈ body, isspace ch = true := by
    intro ch hch
    by_contra hc
    exact hno ⟨ch, hch, by simpa using hc⟩
  rw [specTokens_ws body hall] at h
  cases h

theorem dispatch_clr (c : Consts) (w : World) (f : Frame) (h : f.command = "clr".toList) :
    dispatch c w f = if f.args 0 ≠ .null then ([.printf "Usage: clear\n".toList], .next)
      else ([.clearScreen], .next) := by
  simp [dispatch, h, String.toList]

theorem dispatch_pwd (c : Consts) (w : World) (f : Frame) (h : f.command = "pwd".toList) :
    dispatch c w f = ([.printWorkingDirectory], .next) := by
  simp [dispatch, h, String.toList]

theorem dispatch_help (c : Consts) (w : World) (f : Frame) (h : f.command = "help".toList) :
    dispatch c w f = ([.help], .next) := by
  simp [dispatch, h, String.toList]

theorem dispatch_pause (c : Consts) (w : World) (f : Frame) (h : f.command = "pause".toList) :
    dispatch c w f = ([.pauseShell], .next) := by
  simp [dispatch, h, String.toList]

theorem dispatch_environ (c : Consts) (w : World) (f : Frame)
    (h : f.command = "environ".toList) :
    dispatch c w f = ([.listEnviron], .next) := by
  simp [dispatch, h, String.toList]

/-- C6 as amended.  For every line read whose first token is `clr` and which
has one argument or more, the pass prints `Usage: clear` and does not call
`clearScreen`; with no argument, and `args[0]` holding `NULL`, it calls
`clearScreen` once.  For every line read whose first token is `pwd`, `help`,
`pause` or `environ`, with any number of arguments, the pass calls the
collaborator of that name once and prints no usage error. -/
theorem argument_check_of_zero_argument_builtins (c : Consts) (w : World) (f : Frame)
    (body nl name : List Char) (args : List (List Char))
    (hflag : f.sigint_received = false)
    (hread : w.read = .line (body ++ nl)) (hnl : nl = [] ∨ nl = ['\n'])
    (hN : ∀ ch ∈ body, ch ≠ NUL ∧ ch ≠ '\n')
    (hδ : ∀ ch ∈ body, c.SPACE_DELIMETER.contains ch = isspace ch)
    (hfit : (body ++ nl).length ≤ c.ARG_MAX - 1) (hbase : f.base ≤ f.mem.length)
    (hspec : specTokens body = name :: args) :
    (name = "clr".toList → args ≠ [] →
      (iteration c w f).1 = .prompt :: .fgets :: commandLine name :: args.map argLine
        ++ [.printf "Usage: clear\n".toList])
    ∧ (name = "clr".toList → args = [] → f.args 0 = .null →
      (iteration c w f).1 = .prompt :: .fgets :: commandLine name :: args.map argLine
        ++ [.clearScreen])
    ∧ (name = "pwd".toList →
      (iteration c w f).1 = .prompt :: .fgets :: commandLine name :: args.map argLine
        ++ [.printWorkingDirectory])
    ∧ (name = "help".toList →
      (iteration c w f).1 = .prompt :: .fgets :: commandLine name :: args.map argLine
        ++ [.help])
    ∧ (name = "pause".toList →
      (iteration c w f).1 = .prompt :: .fgets :: commandLine name :: args.map argLine
        ++ [.pauseShell])
    ∧ (name = "environ".toList →
      (iteration c w f).1 = .prompt :: .fgets :: commandLine name :: args.map argLine
        ++ [.listEnviron]) := by
  obtain ⟨t, ts, f1, h1, h2, h3⟩ := iteration_line c w f body nl hflag hread hnl hN hδ
    (visible_of_specTokens body name args hspec) hfit hbase
  rw [hspec] at h1
  injection h1 with e1 e2
  subst e1 e2
  obtain ⟨-, a2, -, -, a5, -, -, a8⟩ := h3
  have hcmd : f1.command = name := a2
  rw [h2]
  refine ⟨?_, ?_, ?_, ?_, ?_, ?_⟩
  · intro hn hargs
    obtain ⟨a, rest, rfl⟩ := List.exists_cons_of_ne_nil hargs
    obtain ⟨p, hp, -, -⟩ := a8 0 a (by simp)
    simp only [Nat.add_zero] at hp
    rw [dispatch_clr c w f1 (hcmd.trans hn)]
    simp [hp]
  · intro hn hargs h0
    subst hargs
    have : f1.args 0 = .null := by rw [a5 0 (by simp)]; exact h0
    rw [dispatch_clr c w f1 (hcmd.trans hn)]
    simp [this]
  · intro hn; rw [dispatch_pwd c w f1 (hcmd.trans hn)]
  · intro hn; rw [dispatch_help c w f1 (hcmd.trans hn)]
  · intro hn; rw [dispatch_pause c w f1 (hcmd.trans hn)]
  · intro hn; rw [dispatch_environ c w f1 (hcmd.trans hn)]

/-- C6 as amended, at the lines `clr x` and `pwd x` on a zeroed frame. -/
theorem argument_check_of_zero_argument_builtins_witness :
    (iteration linuxBlank (lineWorld "clr x") zeroFrame).1
      = [.prompt, .fgets, commandLine "clr".toList, argLine "x".toList,
         .printf "Usage: clear\n".toList]
    ∧ (iteration linuxBlank (lineWorld "pwd x") zeroFrame).1
      = [.prompt, .fgets, commandLine "pwd".toList, argLine "x".toList,
         .printWorkingDirectory] :=
  ⟨(argument_check_of_zero_argument_builtins linuxBlank (lineWorld "clr x") zeroFrame
      "clr x".toList ['\n'] "clr".toList ["x".toList] rfl rfl (Or.inr rfl) (by decide)
      (by decide) (by decide)
      (by show 1 ≤ (List.replicate (1 + 131072) NUL).length; rw [List.length_replicate]; decide)
      (by decide)).1 rfl (by simp),
   (argument_check_of_zero_argument_builtins linuxBlank (lineWorld "pwd x") zeroFrame
      "pwd x".toList ['\n'] "pwd".toList ["x".toList] rfl rfl (Or.inr rfl) (by decide)
      (by decide) (by decide)
      (by show 1 ≤ (List.replicate (1 + 131072) NUL).length; rw [List.length_replicate]; decide)
      (by decide)).2.2.1 rfl⟩

/-- C11. When the blocked line read of a pass is interrupted by a SIGINT (the
handler sets the flag, `fgets` returns `NULL` with `errno == EINTR`), the pass
is the prompt, the read, exactly one newline and `clearerr`; it goes back to
the top of the loop with the flag cleared and the rest of the frame untouched,
so nothing is tokenized or dispatched; and the pass after it, whatever its
environment, starts with the prompt and the read. -/
theorem interrupted_read_reprompts (c : Consts) (w w2 : World) (f : Frame)
    (hflag : f.sigint_received = false) (hread : w.read = .null true)
    (hsig : w.sigint = true) :
    iteration c w f
      = ([.prompt, .fgets, .printf ['\n'], .clearerr], .next,
         { f with sigint_received := false })
    ∧ (iteration c w f).2.2.sigint_received = false
    ∧ ∃ rest, (iteration c w2 (iteration c w f).2.2).1 = .prompt :: .fgets :: rest := by
  have h1 : iteration c w f
      = ([.prompt, .fgets, .printf ['\n'], .clearerr], .next,
         { f with sigint_received := false }) := by
    simp [iteration, hflag, readLine, hread, hsig]
  refine ⟨h1, by rw [h1], ?_⟩
  rw [h1]
  simp only [iteration, Bool.false_eq_true, if_false]
  cases readLine c w2 { f with sigint_received := w2.sigint } with
  | none => exact ⟨_, rfl⟩
  | some f1 =>
    dsimp only
    cases tokenize c f1 with
    | none => exact ⟨_, rfl⟩
    | some r => exact ⟨_, rfl⟩

/-- C11, on a zeroed frame: the interrupted pass, then a pass that reads `pwd`. -/
theorem interrupted_read_reprompts_witness :
    iteration linuxBlank interruptWorld zeroFrame
      = ([.prompt, .fgets, .printf ['\n'], .clearerr], .next,
         { zeroFrame with sigint_received := false })
    ∧ (iteration linuxBlank interruptWorld zeroFrame).2.2.sigint_received = false
    ∧ ∃ rest, (iteration linuxBlank (lineWorld "pwd")
        (iteration linuxBlank interruptWorld zeroFrame).2.2).1 = .prompt :: .fgets :: rest :=
  interrupted_read_reprompts linuxBlank interruptWorld (lineWorld "pwd") zeroFrame rfl rfl rfl

theorem dispatch_launch (c : Consts) (w : World) (f : Frame) (h : f.command ∉ builtinNames) :
    dispatch c w f = launch c w f := by
  simp only [builtinNames, List.mem_cons, List.mem_singleton, List.not_mem_nil,
    or_false, not_or] at h
  obtain ⟨h1, h2, h3, h4, h5, h6, h7, h8, h9, h10⟩ := h
  simp only [dispatch, h1, h2, h3, h4, h5, h6, h7, h8, h9, h10, if_false, or_self]

theorem launch_parent (c : Consts) (w : World) (f : Frame) (hfork : w.forkRet ≠ 0) :
    launch c w f
      = if WIFEXITED w.status && WEXITSTATUS w.status != 0 then
          ([.fork, .waitpid w.forkRet, exitStatusLine (WEXITSTATUS w.status)], .next)
        else ([.fork, .waitpid w.forkRet], .next) := by
  simp only [launch, hfork, if_false, exitStatusLine]

/-- C12. For a launched command, seen from the parent: the parent prints
`Exit status: N` exactly when the wait status says the child ended normally
(`WIFEXITED`) with a code `N` other than zero, `N` being `WEXITSTATUS`, and in
either case goes back to the top of the loop.  In terms of how the child
ended: a normal end with code `N` prints `N` when `N` is not zero and nothing
when it is zero, an end by a signal (with or without core dump) prints
nothing.  When `execvp` returns in the child, the child ends with
`EXIT_FAILURE`, which is not zero, and the parent prints it. -/
theorem exit_status_reported (c : Consts) (w : World) (f : Frame)
    (hcmd : f.command ∉ builtinNames) (hfork : w.forkRet ≠ 0) :
    (WIFEXITED w.status = true ∧ WEXITSTATUS w.status ≠ 0 →
      dispatch c w f
        = ([.fork, .waitpid w.forkRet, exitStatusLine (WEXITSTATUS w.status)], .next))
    ∧ (¬(WIFEXITED w.status = true ∧ WEXITSTATUS w.status ≠ 0) →
      dispatch c w f = ([.fork, .waitpid w.forkRet], .next))
    ∧ (∀ code, code < 256 → code ≠ 0 → w.status = W_EXITCODE code 0 →
      dispatch c w f = ([.fork, .waitpid w.forkRet, exitStatusLine code], .next))
    ∧ (w.status = W_EXITCODE 0 0 → dispatch c w f = ([.fork, .waitpid w.forkRet], .next))
    ∧ (∀ sig, 0 < sig → sig < 128 →
      w.status = W_EXITCODE 0 sig ∨ w.status = W_EXITCODE 0 (sig + 128) →
      dispatch c w f = ([.fork, .waitpid w.forkRet], .next))
    ∧ (∀ wc : World, wc.forkRet = 0 → wc.setpgidRet ≠ -1 → wc.signalErr = false →
      wc.execvpFails = true →
      (dispatch c wc f).2 = .exit EXIT_FAILURE ∧ EXIT_FAILURE ≠ 0 ∧
      (w.status = W_EXITCODE EXIT_FAILURE 0 →
        dispatch c w f = ([.fork, .waitpid w.forkRet, exitStatusLine EXIT_FAILURE], .next))) := by
  have hd := dispatch_launch c w f hcmd
  have hp := launch_parent c w f hfork
  have key : ∀ code, code < 256 → w.status = W_EXITCODE code 0 →
      WIFEXITED w.status = true ∧ WEXITSTATUS w.status = code := by
    intro code hc hs
    rw [hs]
    simp only [WIFEXITED, WEXITSTATUS, W_EXITCODE, Nat.add_zero, beq_iff_eq]
    omega
  refine ⟨?_, ?_, ?_, ?_, ?_, ?_⟩
  · rintro ⟨h1, h2⟩
    rw [hd, hp]; simp [h1, h2]
  · intro h
    rw [hd, hp]
    by_cases h1 : WIFEXITED w.status = true
    · have h2 : WEXITSTATUS w.status = 0 := by
        by_contra h2; exact h ⟨h1, h2⟩
      simp [h1, h2]
    · simp [h1]
  · intro code hc hne hs
    obtain ⟨h1, h2⟩ := key code hc hs
    rw [hd, hp]; simp [h1, h2, hne]
  · intro hs
    obtain ⟨h1, h2⟩ := key 0 (by omega) hs
    rw [hd, hp]; simp [h1, h2]
  · intro sig h0 h128 hs
    have h1 : WIFEXITED w.status = false := by
      rcases hs with hs | hs <;> rw [hs] <;>
        simp only [WIFEXITED, W_EXITCODE, beq_eq_false_iff_ne, ne_eq] <;> omega
    rw [hd, hp]; simp [h1]
  · intro wc hc hset hsig hex
    refine ⟨?_, by decide, ?_⟩
    · rw [dispatch_launch c wc f hcmd]
      simp [launch, hc, hset, hsig, hex]
    · intro hs
      obtain ⟨h1, h2⟩ := key EXIT_FAILURE (by decide) hs
      rw [hd, hp]; simp [h1, h2, EXIT_FAILURE]

/-- C12, at the line `nonexistent-cmd`: the child's `execvp` fails and the
child exits with `EXIT_FAILURE`; the parent, given the wait status of that
exit, prints `Exit status: 1` and goes on. -/
theorem exit_status_reported_witness :
    dispatch linuxBlank { lineWorld "nonexistent-cmd" with status := W_EXITCODE EXIT_FAILURE 0 }
        { zeroFrame with command := "nonexistent-cmd".toList }
      = ([.fork, .waitpid 4242, .printf "Exit status: 1\n".toList], .next)
    ∧ (run linuxBlank [{ childWorld "nonexistent-cmd" with execvpFails := true }] zeroFrame).2.1
      = .exit EXIT_FAILURE
    ∧ (run linuxBlank [{ lineWorld "nonexistent-cmd" with status := W_EXITCODE EXIT_FAILURE 0 },
          lineWorld "pwd"] zeroFrame).1
      = [[.prompt, .fgets, commandLine "nonexistent-cmd".toList, .fork, .waitpid 4242,
          .printf "Exit status: 1\n".toList],
         [.prompt, .fgets, commandLine "pwd".toList, .printWorkingDirectory]] :=
  ⟨(exit_status_reported linuxBlank
      { lineWorld "nonexistent-cmd" with status := W_EXITCODE EXIT_FAILURE 0 }
      { zeroFrame with command := "nonexistent-cmd".toList } (by decide) (by decide)).1
      ⟨by decide, by decide⟩,
   by decide, by decide⟩

/-- C13. In the child of the launcher (`fork() == 0`), whatever `setpgid`,
`signal` and `execvp` answer: the branch ends in the replaced image or in
`exit(EXIT_FAILURE)`, which is not zero, and never at the top of the loop; the
image is replaced exactly when the three steps succeed; `execvp` is called
exactly when `setpgid` did not return -1 and `signal` did not return
`SIG_ERR`, and then the steps before it are `fork`, `setpgid`, `signal`, in
this order, followed by no other step of the launcher; when `setpgid` fails
nothing but `perror` follows it, and when `signal` fails nothing but `perror`
follows it. -/
theorem child_never_returns_to_loop (c : Consts) (w : World) (f : Frame)
    (hcmd : f.command ∉ builtinNames) (hchild : w.forkRet = 0) :
    ((dispatch c w f).2 = .exec ∨ (dispatch c w f).2 = .exit EXIT_FAILURE)
    ∧ EXIT_FAILURE ≠ 0 ∧ (dispatch c w f).2 ≠ .next
    ∧ ((dispatch c w f).2 = .exec ↔
        (w.setpgidRet ≠ -1 ∧ w.signalErr = false ∧ w.execvpFails = false))
    ∧ ((∃ file argv, Event.execvp file argv ∈ (dispatch c w f).1) ↔
        (w.setpgidRet ≠ -1 ∧ w.signalErr = false))
    ∧ (∀ file argv, Event.execvp file argv ∈ (dispatch c w f).1 →
        ∃ mid tail, (dispatch c w f).1
            = [.fork, .setpgid, .signalDfl] ++ mid ++ Event.execvp file argv :: tail
          ∧ (∀ e ∈ mid, e.isLaunch = false) ∧ ∀ e ∈ tail, e.isLaunch = false)
    ∧ (w.setpgidRet = -1 →
        dispatch c w f
          = ([.fork, .setpgid, .perror "setpgid failed".toList], .exit EXIT_FAILURE))
    ∧ (w.setpgidRet ≠ -1 → w.signalErr = true →
        dispatch c w f
          = ([.fork, .setpgid, .signalDfl, .perror "Signal error in child".toList],
             .exit EXIT_FAILURE)) := by
  rw [dispatch_launch c w f hcmd]
  have hct : ∀ e ∈ childTrace c w f, e.isLaunch = false ∧ ∀ file argv, e ≠ .execvp file argv := by
    unfold childTrace
    split <;> simp [Event.isLaunch, allocFailure]
  by_cases h1 : w.setpgidRet = -1
  · have hl : launch c w f
        = ([.fork, .setpgid, .perror "setpgid failed".toList], .exit EXIT_FAILURE) := by
      simp only [launch, hchild, h1, if_true]
    rw [hl]
    simp [h1, EXIT_FAILURE]
  · by_cases h2 : w.signalErr = true
    · have hl : launch c w f
          = ([.fork, .setpgid, .signalDfl, .perror "Signal error in child".toList],
             .exit EXIT_FAILURE) := by
        simp only [launch, hchild, h1, h2, if_true, if_false]
      rw [hl]
      simp [h1, h2, EXIT_FAILURE]
    · have h2f : w.signalErr = false := by simpa using h2
      by_cases h3 : w.execvpFails = true
      · have hl : launch c w f
            = ([.fork, .setpgid, .signalDfl] ++ childTrace c w f ++
                [.execvp f.command (argvOf (f.strs f.full_command) c.ARG_MAX 0),
                 .printf "Command not found\n".toList, .perror "execvp".toList],
               .exit EXIT_FAILURE) := by
          simp only [launch, hchild, h1, h2f, h3, if_true, if_false, Bool.false_eq_true]
        rw [hl]
        refine ⟨Or.inr rfl, by decide, by simp, by simp [h3], ?_, ?_, fun h => absurd h h1,
          fun _ h => absurd h h2⟩
        · constructor
          · intro _; exact ⟨h1, h2f⟩
          · intro _; exact ⟨f.command, argvOf (f.strs f.full_command) c.ARG_MAX 0, by simp⟩
        · intro file argv hmem
          rcases List.mem_append.1 hmem with hm | hm
          · rcases List.mem_append.1 hm with hm | hm
            · simp at hm
            · exact absurd rfl ((hct _ hm).2 file argv)
          · simp only [List.mem_cons, Event.execvp.injEq, reduceCtorEq, List.not_mem_nil,
              or_false] at hm
            obtain ⟨rfl, rfl⟩ := hm
            exact ⟨childTrace c w f, _, rfl, fun e he => (hct e he).1, by simp [Event.isLaunch]⟩
      · have h3f : w.execvpFails = false := by simpa using h3
        have hl : launch c w f
            = ([.fork, .setpgid, .signalDfl] ++ childTrace c w f ++
                [.execvp f.command (argvOf (f.strs f.full_command) c.ARG_MAX 0)], .exec) := by
          simp only [launch, hchild, h1, h2f, h3f, if_true, if_false, Bool.false_eq_true]
        rw [hl]
        refine ⟨Or.inl rfl, by decide, by simp, by simp [h1, h2f, h3f], ?_, ?_,
          fun h => absurd h h1, fun _ h => absurd h h2⟩
        · constructor
          · intro _; exact ⟨h1, h2f⟩
          · intro _; exact ⟨f.command, argvOf (f.strs f.full_command) c.ARG_MAX 0, by simp⟩
        · intro file argv hmem
          rcases List.mem_append.1 hmem with hm | hm
          · rcases List.mem_append.1 hm with hm | hm
            · simp at hm
            · exact absurd rfl ((hct _ hm).2 file argv)
          · simp only [List.mem_cons, Event.execvp.injEq, List.not_mem_nil, or_false] at hm
            obtain ⟨rfl, rfl⟩ := hm
            exact ⟨childTrace c w f, [], rfl, fun e he => (hct e he).1, by simp⟩

/-- C13, in the child of the line `ls` on a zeroed frame, with `execvp`
failing: the steps in order, then `exit(EXIT_FAILURE)`. -/
theorem child_never_returns_to_loop_witness :
    ((dispatch linuxBlank { childWorld "ls" with execvpFails := true }
        { zeroFrame with command := "ls".toList }).2 = .exec
      ∨ (dispatch linuxBlank { childWorld "ls" with execvpFails := true }
        { zeroFrame with command := "ls".toList }).2 = .exit EXIT_FAILURE)
    ∧ (run linuxBlank [{ childWorld "ls" with execvpFails := true }, lineWorld "pwd"]
        zeroFrame)
      = ([[.prompt, .fgets, commandLine "ls".toList, .fork, .setpgid, .signalDfl,
           .printf "full_command: --ls --\n".toList, .execvp "ls".toList ["ls".toList],
           .printf "Command not found\n".toList, .perror "execvp".toList]],
         .exit EXIT_FAILURE,
         (iteration linuxBlank { childWorld "ls" with execvpFails := true } zeroFrame).2.2) :=
  ⟨(child_never_returns_to_loop linuxBlank { childWorld "ls" with execvpFails := true }
      { zeroFrame with command := "ls".toList } (by decide) rfl).1,
   by
    have h : (iteration linuxBlank { childWorld "ls" with execvpFails := true } zeroFrame).1
        = [.prompt, .fgets, commandLine "ls".toList, .fork, .setpgid, .signalDfl,
           .printf "full_command: --ls --\n".toList, .execvp "ls".toList ["ls".toList],
           .printf "Command not found\n".toList, .perror "execvp".toList] := by decide
    have h2 : (iteration linuxBlank { childWorld "ls" with execvpFails := true } zeroFrame).2.1
        = .exit EXIT_FAILURE := by decide
    simp only [run, h2, h]⟩

/-- C14, evaluated on the code, which departs from it.  When `fork` returns -1
for the line `ls`, the test `fork() == 0` fails and the parent branch runs:
nothing is reported, `waitpid` is called with the pid -1, and the status it
leaves is inspected, so that a status of a normal exit with code 1 is printed
as `Exit status: 1`. -/
theorem failed_fork_waits_on_any_child :
    (run linuxBlank [{ lineWorld "ls" with forkRet := -1 }] zeroFrame).1
      = [[.prompt, .fgets, commandLine "ls".toList, .fork, .waitpid (-1)]]
    ∧ (run linuxSpaces [{ lineWorld "ls" with forkRet := -1 }] zeroFrame).1
      = [[.prompt, .fgets, commandLine "ls".toList, .fork, .waitpid (-1)]]
    ∧ (run linuxBlank [{ lineWorld "ls" with forkRet := -1, status := 256 }] zeroFrame).1
      = [[.prompt, .fgets, commandLine "ls".toList, .fork, .waitpid (-1),
          .printf "Exit status: 1\n".toList]] := by
  refine ⟨?_, ?_, ?_⟩ <;> decide

theorem dispatch_quit (c : Consts) (w : World) (f : Frame)
    (h : f.command = "quit".toList ∨ f.command = "exit".toList) :
    dispatch c w f = ([.quitShell], .quit) := by
  rcases h with h | h <;> simp [dispatch, h, String.toList]

/-- C15. For every line read whose first token is `quit` or `exit`, with any
arguments and on any frame left by earlier passes, the pass is the prompt, the
read, the tokenizer's lines and one call of `quitShell`, with no test on the
arguments and no other collaborator, and control stays in `quitShell`; and the
dispatcher does the same on any frame whose `command` is `quit` as on any
frame whose `command` is `exit`. -/
theorem quit_exit_synonymous (c : Consts) (w : World) (f : Frame)
    (body nl name : List Char) (args : List (List Char))
    (hflag : f.sigint_received = false)
    (hread : w.read = .line (body ++ nl)) (hnl : nl = [] ∨ nl = ['\n'])
    (hN : ∀ ch ∈ body, ch ≠ NUL ∧ ch ≠ '\n')
    (hδ : ∀ ch ∈ body, c.SPACE_DELIMETER.contains ch = isspace ch)
    (hfit : (body ++ nl).length ≤ c.ARG_MAX - 1) (hbase : f.base ≤ f.mem.length)
    (hspec : specTokens body = name :: args)
    (hname : name = "quit".toList ∨ name = "exit".toList) :
    (iteration c w f).1
      = .prompt :: .fgets :: commandLine name :: args.map argLine ++ [.quitShell]
    ∧ (iteration c w f).2.1 = .quit
    ∧ ∀ (w1 w2 : World) (g1 g2 : Frame),
        g1.command = "quit".toList → g2.command = "exit".toList →
        dispatch c w1 g1 = dispatch c w2 g2 ∧ dispatch c w1 g1 = ([.quitShell], .quit) := by
  obtain ⟨t, ts, f1, h1, h2, h3⟩ := iteration_line c w f body nl hflag hread hnl hN hδ
    (visible_of_specTokens body name args hspec) hfit hbase
  rw [hspec] at h1
  injection h1 with e1 e2
  subst e1 e2
  have hcmd : f1.command = name := h3.2.1
  have hd := dispatch_quit c w f1 (by rw [hcmd]; exact hname)
  rw [h2, hd]
  refine ⟨rfl, rfl, ?_⟩
  intro w1 w2 g1 g2 hq he
  rw [dispatch_quit c w1 g1 (Or.inl hq), dispatch_quit c w2 g2 (Or.inr he)]
  exact ⟨rfl, rfl⟩

/-- C15, at the lines `quit now` and `exit now` on a zeroed frame. -/
theorem quit_exit_synonymous_witness :
    (iteration linuxBlank (lineWorld "quit now") zeroFrame).1
      = [.prompt, .fgets, commandLine "quit".toList, argLine "now".toList, .quitShell]
    ∧ (iteration linuxBlank (lineWorld "exit now") zeroFrame).1
      = [.prompt, .fgets, commandLine "exit".toList, argLine "now".toList, .quitShell]
    ∧ (iteration linuxBlank (lineWorld "exit now") zeroFrame).2.1 = .quit :=
  ⟨(quit_exit_synonymous linuxBlank (lineWorld "quit now") zeroFrame
      "quit now".toList ['\n'] "quit".toList ["now".toList] rfl rfl (Or.inr rfl) (by decide)
      (by decide) (by decide)
      (by show 1 ≤ (List.replicate (1 + 131072) NUL).length; rw [List.length_replicate]; decide)
      (by decide) (Or.inl rfl)).1,
   (quit_exit_synonymous linuxBlank (lineWorld "exit now") zeroFrame
      "exit now".toList ['\n'] "exit".toList ["now".toList] rfl rfl (Or.inr rfl) (by decide)
      (by decide) (by decide)
      (by show 1 ≤ (List.replicate (1 + 131072) NUL).length; rw [List.length_replicate]; decide)
      (by decide) (Or.inr rfl)).1,
   (quit_exit_synonymous linuxBlank (lineWorld "exit now") zeroFrame
      "exit now".toList ['\n'] "exit".toList ["now".toList] rfl rfl (Or.inr rfl) (by decide)
      (by decide) (by decide)
      (by show 1 ≤ (List.replicate (1 + 131072) NUL).length; rw [List.length_replicate]; decide)
      (by decide) (Or.inr rfl)).2.1⟩

/-! ## Blank strings -/

theorem cstr_of_peek_nul (m : Mem) (p : Nat) (h : peek m p = NUL) : cstr m p = [] := by
  unfold cstr
  by_cases hp : p < m.length
  · rw [List.drop_eq_getElem_cons hp]
    have : m[p] = NUL := by
      simpa [peek, List.getD_eq_getElem?_getD, List.getElem?_eq_getElem hp] using h
    simp [this]
  · rw [List.drop_eq_nil_of_le (by omega)]
    rfl

theorem peek_poke_nul (m : Mem) (k p : Nat) (h : peek m p = NUL) :
    peek (poke m k NUL) p = NUL := by
  unfold peek poke at *
  rw [List.getD_eq_getElem?_getD] at h ⊢
  rw [List.getElem?_set]
  split
  · split <;> rfl
  · exact h

theorem strtok_at_nul (δ : List Char) (m : Mem) (p : Nat) (h : peek m p = NUL) :
    strtok δ m p = (none, m, p) := by
  have hs : strspn m p δ = 0 := by
    unfold strspn
    rw [cstr_of_peek_nul m p h]
    rfl
  simp only [strtok, hs, Nat.add_zero, h, if_true]

/-- The tokenizer on a frame whose `input_char` holds a blank string: either
`rtrim` leaves the modelled memory, or no token is found and `command`, `args`
and `full_command` stay as they were. -/
theorem tokenize_blank (c : Consts) (f : Frame) (P body nl Q : Mem)
    (hm : f.mem = P ++ body ++ nl ++ NUL :: Q) (hP : P.length = f.base)
    (hnl : nl = [] ∨ nl = ['\n'])
    (hN : ∀ ch ∈ body, ch ≠ NUL ∧ ch ≠ '\n')
    (hblank : ∀ ch ∈ body, isspace ch = true) :
    tokenize c f = none ∨ ∃ m1, tokenize c f = some (0, { f with mem := m1 }, []) := by
  obtain ⟨Q1, hstrip⟩ := strip_newline P body nl Q hnl hN
  have e0 : poke f.mem (f.base + strcspn f.mem f.base ['\n']) NUL = P ++ body ++ NUL :: Q1 := by
    rw [← hP, hm]; exact hstrip
  have hl : ltrim (P ++ body ++ NUL :: Q1) f.base = P.length + body.length := by
    unfold ltrim
    rw [← hP, List.append_assoc, List.drop_left, takeWhile_stop body NUL Q1 hblank isspace_NUL]
  have hpk : peek (P ++ body ++ NUL :: Q1) (P.length + body.length) = NUL := by
    have := peek_append (P ++ body) NUL Q1
    simpa using this
  simp only [tokenize, e0, trim, hl, rtrim]
  cases rtrimScan (P ++ body ++ NUL :: Q1)
      (P.length + body.length + strlen (P ++ body ++ NUL :: Q1) (P.length + body.length)) with
  | none => exact Or.inl rfl
  | some back =>
    refine Or.inr ⟨poke (P ++ body ++ NUL :: Q1) (back + 1) NUL, ?_⟩
    have hs := strtok_at_nul c.SPACE_DELIMETER _ _
      (peek_poke_nul (P ++ body ++ NUL :: Q1) (back + 1) _ hpk)
    simp only [hs]

theorem dispatch_next (c : Consts) (w : World) (f : Frame)
    (hq : f.command ≠ "quit".toList) (he : f.command ≠ "exit".toList)
    (hfork : w.forkRet ≠ 0) : (dispatch c w f).2 = .next := by
  by_cases hb : f.command ∈ builtinNames
  · simp only [builtinNames, List.mem_cons, List.mem_singleton, List.not_mem_nil,
      or_false] at hb
    rcases hb with h | h | h | h | h | h | h | h | h | h
    · simp only [dispatch, h, if_true]; split_ifs <;> rfl
    · exact absurd h hq
    · exact absurd h he
    · rw [dispatch_clr c w f h]; split_ifs <;> rfl
    · rw [dispatch_environ c w f h]
    · simp only [dispatch, h, String.toList, List.cons.injEq, Char.reduceEq, and_true,
        and_false, or_self, if_false, if_true, reduceCtorEq]
      split_ifs <;> rfl
    · simp only [dispatch, h, String.toList, List.cons.injEq, Char.reduceEq, and_true,
        and_false, or_self, if_false, if_true, reduceCtorEq]
      split <;> rfl
    · rw [dispatch_pwd c w f h]
    · rw [dispatch_help c w f h]
    · rw [dispatch_pause c w f h]
  · rw [dispatch_launch c w f hb, launch_parent c w f hfork]
    split_ifs <;> rfl

/-- C16. When the line read of a pass fails without the flagged interrupt
(`fgets` returns `NULL` and not both `errno == EINTR` and the flag set), the
pass does not leave the loop at the read: it goes on to tokenize the frame as
it was, `input_char` included, and to dispatch.  Whenever the tokenizer
returns, the pass is the prompt, the read, the tokenizer's lines and the
dispatcher's steps, and, unless the `command` it dispatches is `quit` or
`exit` or the process followed is the forked child, it ends back at the top of
the loop.  When `input_char` holds a string with a visible character, the
tokenizer does return and the pass dispatches the first token of that stale
string; when it holds a blank string, the pass either leaves the modelled
memory in `rtrim` or dispatches the `command` left in the frame. -/
theorem read_failure_falls_through (c : Consts) (w : World) (f : Frame) (eintr : Bool)
    (hflag : f.sigint_received = false) (hread : w.read = .null eintr)
    (hno : (eintr && w.sigint) = false) :
    (∀ i f1 out, tokenize c { f with sigint_received := w.sigint } = some (i, f1, out) →
      iteration c w f
        = (.prompt :: .fgets :: out ++ (dispatch c w f1).1, (dispatch c w f1).2, f1)
      ∧ (f1.command ≠ "quit".toList → f1.command ≠ "exit".toList → w.forkRet ≠ 0 →
          (iteration c w f).2.1 = .next))
    ∧ (∀ P body Q : Mem, f.mem = P ++ body ++ NUL :: Q → P.length = f.base →
      (∀ ch ∈ body, ch ≠ NUL ∧ ch ≠ '\n') →
      (∀ ch ∈ body, c.SPACE_DELIMETER.contains ch = isspace ch) →
      (∃ ch ∈ body, isspace ch = false) → body.length ≤ c.ARG_MAX →
      ∃ t ts f1, specTokens body = t :: ts ∧ f1.command = t ∧
        iteration c w f
          = (.prompt :: .fgets :: commandLine t :: ts.map argLine ++ (dispatch c w f1).1,
             (dispatch c w f1).2, f1))
    ∧ (∀ P body Q : Mem, f.mem = P ++ body ++ NUL :: Q → P.length = f.base →
      (∀ ch ∈ body, ch ≠ NUL ∧ ch ≠ '\n') → (∀ ch ∈ body, isspace ch = true) →
      (iteration c w f).2.1 = .fault ∨
      ∃ m1, iteration c w f
        = (.prompt :: .fgets ::
             (dispatch c w { f with mem := m1, sigint_received := w.sigint }).1,
           (dispatch c w { f with mem := m1, sigint_received := w.sigint }).2,
           { f with mem := m1, sigint_received := w.sigint })) := by
  have hrl : readLine c w { f with sigint_received := w.sigint }
      = some { f with sigint_received := w.sigint } := by
    simp only [readLine, hread, hno, Bool.false_eq_true, if_false]
  have hit : ∀ i f1 out, tokenize c { f with sigint_received := w.sigint } = some (i, f1, out) →
      iteration c w f
        = (.prompt :: .fgets :: out ++ (dispatch c w f1).1, (dispatch c w f1).2, f1) := by
    intro i f1 out ht
    simp only [iteration, hflag, Bool.false_eq_true, if_false, hrl, ht]
    rfl
  refine ⟨?_, ?_, ?_⟩
  · intro i f1 out ht
    refine ⟨hit i f1 out ht, ?_⟩
    intro hq he hfork
    rw [hit i f1 out ht]
    exact dispatch_next c w f1 hq he hfork
  · intro P body Q hm hP hN hδ hvis hlen
    obtain ⟨t, ts, f1, h1, h2, h3⟩ := tokenize_line c { f with sigint_received := w.sigint }
      P body [] Q (by simp [hm]) hP (Or.inl rfl) hN hδ hvis hlen
    exact ⟨t, ts, f1, h1, h3.2.1, hit _ f1 _ h2⟩
  · intro P body Q hm hP hN hblank
    rcases tokenize_blank c { f with sigint_received := w.sigint } P body [] Q
      (by simp [hm]) hP (Or.inl rfl) hN hblank with h | ⟨m1, h⟩
    · left
      simp only [iteration, hflag, Bool.false_eq_true, if_false, hrl, h]
    · right
      exact ⟨m1, hit _ _ _ h⟩

/-- C16, at the end of input: on the frame left by the line `pwd` every pass
that meets the end of input tokenizes the stale `pwd` and calls
`printWorkingDirectory` again, and the loop goes on. -/
theorem read_failure_falls_through_witness :
    (∀ i f1 out,
      tokenize linuxBlank { zeroFrame with sigint_received := eofWorld.sigint }
        = some (i, f1, out) →
      iteration linuxBlank eofWorld zeroFrame
        = (.prompt :: .fgets :: out ++ (dispatch linuxBlank eofWorld f1).1,
           (dispatch linuxBlank eofWorld f1).2, f1)
      ∧ (f1.command ≠ "quit".toList → f1.command ≠ "exit".toList → eofWorld.forkRet ≠ 0 →
          (iteration linuxBlank eofWorld zeroFrame).2.1 = .next))
    ∧ (run linuxBlank [lineWorld "pwd", eofWorld, eofWorld] zeroFrame).1
      = [[.prompt, .fgets, commandLine "pwd".toList, .printWorkingDirectory],
         [.prompt, .fgets, commandLine "pwd".toList, .printWorkingDirectory],
         [.prompt, .fgets, commandLine "pwd".toList, .printWorkingDirectory]]
    ∧ (run linuxBlank [lineWorld "pwd", eofWorld, eofWorld] zeroFrame).2.1 = .next :=
  ⟨(read_failure_falls_through linuxBlank eofWorld zeroFrame false rfl rfl rfl).1,
   by decide, by decide⟩

theorem Layout.token_length_le {r : List Char} {ts : List (List Char)} (h : Layout r ts) :
    ∀ a ∈ ts, a.length ≤ r.length := by
  induction h with
  | done d hd => simp
  | last d t hd ht hne => simp
  | more d t y r ts hd ht hne hy h ih =>
    intro a ha
    rcases List.mem_cons.1 ha with rfl | ha
    · simp; omega
    · have := ih a ha
      simp; omega

/-- What holds of the arrays `args`, `full_command` and `command` for every
line the reader returns (at least one and at most `ARG_MAX - 1` characters):
the tokens of the line number less than `ARG_MAX` and each of them, with its
terminator, fits in `ARG_MAX` bytes; whenever the tokenizer returns, its
counter ends at the number of arguments `i`, with `i + 1 < ARG_MAX`, the
entries `args[j]` for `j ≥ i` and `full_command[j]` for `j > i` are not
written, and `command` holds the first token when there is one and is not
written otherwise; and on a line with a visible character the tokenizer does
return.  Nothing is said here of `input_char` on a blank line. -/
theorem tokenizer_within_buffers (c : Consts) (w : World) (f : Frame) (body nl : List Char)
    (hread : w.read = .line (body ++ nl)) (hnl : nl = [] ∨ nl = ['\n'])
    (hN : ∀ ch ∈ body, ch ≠ NUL ∧ ch ≠ '\n')
    (hδ : ∀ ch ∈ body, c.SPACE_DELIMETER.contains ch = isspace ch)
    (hne : body ++ nl ≠ [])
    (hfit : (body ++ nl).length ≤ c.ARG_MAX - 1) (hbase : f.base ≤ f.mem.length) :
    (specTokens body).length < c.ARG_MAX
    ∧ (∀ a ∈ specTokens body, a.length + 1 ≤ c.ARG_MAX)
    ∧ (∀ f0, readLine c w f = some f0 → ∀ i f1 out, tokenize c f0 = some (i, f1, out) →
        i = (specTokens body).length - 1 ∧ i + 1 < c.ARG_MAX
        ∧ (∀ j, i ≤ j → f1.args j = f.args j)
        ∧ (∀ j, i + 1 ≤ j → f1.full_command j = f.full_command j)
        ∧ (∀ t ts, specTokens body = t :: ts → f1.command = t ∧ t.length + 1 ≤ c.ARG_MAX)
        ∧ (specTokens body = [] → f1.command = f.command))
    ∧ ((∃ ch ∈ body, isspace ch = false) →
        ∀ f0, readLine c w f = some f0 → ∃ i f1 out, tokenize c f0 = some (i, f1, out)) := by
  have hL := layout_specTokens body.length body (le_refl _)
  have hcount := hL.length_le
  have hlens := hL.token_length_le
  have hpos : 0 < (body ++ nl).length := List.length_pos.2 hne
  have hbl : body.length ≤ c.ARG_MAX - 1 := by
    simp only [List.length_append] at hfit; omega
  obtain ⟨P, Q, hfg, hP⟩ := fgets_shape c.ARG_MAX f.mem f.base (body ++ nl) hbase hfit
  have hrl : readLine c w f = some { f with mem := fgets c.ARG_MAX f.mem f.base (body ++ nl) } := by
    simp only [readLine, hread]
  refine ⟨by omega, fun a ha => by have := hlens a ha; omega, ?_, ?_⟩
  · intro f0 hf0 i f1 out htok
    rw [hrl] at hf0
    have hf0' := (Option.some.inj hf0).symm
    subst hf0'
    by_cases hvis : ∃ ch ∈ body, isspace ch = false
    · obtain ⟨t, ts, f2, h1, h2, h3⟩ := tokenize_line c
        { f with mem := fgets c.ARG_MAX f.mem f.base (body ++ nl) }
        P body nl Q (by simp [hfg]) hP hnl hN hδ hvis (by omega)
      rw [h2] at htok
      simp only [Option.some.injEq, Prod.mk.injEq] at htok
      obtain ⟨hi, hf, -⟩ := htok
      subst hi hf
      obtain ⟨-, a2, -, -, a5, -, a7, -⟩ := h3
      rw [h1] at hcount hlens ⊢
      simp only [List.length_cons] at hcount
      refine ⟨by simp, by omega, ?_, ?_, ?_, by simp⟩
      · intro j hj; exact a5 j (by omega)
      · intro j hj
        rw [a7 j (by omega)]
        simp [store]; omega
      · intro t1 ts1 he
        injection he with e1 e2
        subst e1
        exact ⟨a2, by have := hlens t (by simp); omega⟩
    · have hblank : ∀ ch ∈ body, isspace ch = true := by
        intro ch hch
        by_contra hc
        exact hvis ⟨ch, hch, by simpa using hc⟩
      have hs := specTokens_ws body hblank
      rcases tokenize_blank c { f with mem := fgets c.ARG_MAX f.mem f.base (body ++ nl) }
        P body nl Q (by simp [hfg]) hP hnl hN hblank with h | ⟨m1, h⟩
      · rw [h] at htok; cases htok
      · rw [h] at htok
        simp only [Option.some.injEq, Prod.mk.injEq] at htok
        obtain ⟨hi, hf, -⟩ := htok
        subst hi hf
        rw [hs]
        refine ⟨rfl, by omega, fun _ _ => rfl, fun _ _ => rfl, ?_, fun _ => rfl⟩
        intro t ts he; cases he
  · intro hvis f0 hf0
    rw [hrl] at hf0
    have hf0' := (Option.some.inj hf0).symm
    subst hf0'
    obtain ⟨t, ts, f2, h1, h2, h3⟩ := tokenize_line c
      { f with mem := fgets c.ARG_MAX f.mem f.base (body ++ nl) }
      P body nl Q (by simp [hfg]) hP hnl hN hδ hvis (by omega)
    exact ⟨_, _, _, h2⟩

/-- The bounds of `tokenizer_within_buffers` at the line `echo a b` on a zeroed
frame. -/
theorem tokenizer_within_buffers_witness :
    (specTokens "echo a b".toList).length < 131072
    ∧ (∀ a ∈ specTokens "echo a b".toList, a.length + 1 ≤ 131072)
    ∧ ∀ f0, readLine linuxBlank (lineWorld "echo a b") zeroFrame = some f0 →
        ∃ i f1 out, tokenize linuxBlank f0 = some (i, f1, out) :=
  ⟨(tokenizer_within_buffers linuxBlank (lineWorld "echo a b") zeroFrame
      "echo a b".toList ['\n'] rfl (Or.inr rfl) (by decide) (by decide) (by decide)
      (by decide)
      (by show 1 ≤ (List.replicate (1 + 131072) NUL).length; rw [List.length_replicate]; decide)).1,
   (tokenizer_within_buffers linuxBlank (lineWorld "echo a b") zeroFrame
      "echo a b".toList ['\n'] rfl (Or.inr rfl) (by decide) (by decide) (by decide)
      (by decide)
      (by show 1 ≤ (List.replicate (1 + 131072) NUL).length; rw [List.length_replicate]; decide)).2.1,
   (tokenizer_within_buffers linuxBlank (lineWorld "echo a b") zeroFrame
      "echo a b".toList ['\n'] rfl (Or.inr rfl) (by decide) (by decide) (by decide)
      (by decide)
      (by show 1 ≤ (List.replicate (1 + 131072) NUL).length; rw [List.length_replicate]; decide)).2.2.2 (by decide)⟩

/-! ## `trim` on a string with a visible character -/

theorem exists_parts (s : List Char) (hvis : ∃ ch ∈ s, isspace ch = false) :
    ∃ lead core trail, s = lead ++ core ++ trail
      ∧ (∀ ch ∈ lead, isspace ch = true) ∧ (∀ ch ∈ trail, isspace ch = true)
      ∧ (∃ z c1, core = z :: c1 ∧ isspace z = false)
      ∧ (∃ c0 x, core = c0 ++ [x] ∧ isspace x = false) := by
  have hsplit : s = s.takeWhile isspace ++ s.dropWhile isspace :=
    (List.takeWhile_append_dropWhile isspace s).symm
  have hlead : ∀ ch ∈ s.takeWhile isspace, isspace ch = true :=
    fun ch h => List.mem_takeWhile_imp h
  generalize s.takeWhile isspace = lead at hsplit hlead
  have hrest : ∃ ch ∈ s.dropWhile isspace, isspace ch = false := by
    obtain ⟨ch, hch, hws⟩ := hvis
    rw [hsplit] at hch
    rcases List.mem_append.1 hch with h | h
    · simp [hlead ch h] at hws
    · exact ⟨ch, h, hws⟩
  have hz : ∃ z r1, s.dropWhile isspace = z :: r1 ∧ isspace z = false := by
    cases h1 : s.dropWhile isspace with
    | nil => rw [h1] at hrest; simp at hrest
    | cons z r1 =>
      refine ⟨z, r1, rfl, ?_⟩
      have := List.head_dropWhile_not isspace s (by simp [h1])
      simpa [h1] using this
  generalize s.dropWhile isspace = rest at hsplit hrest hz
  obtain ⟨z, r1, hzr, hzs⟩ := hz
  obtain ⟨c0, x, trail, h1, h2, h3⟩ := exists_trail rest hrest
  refine ⟨lead, c0 ++ [x], trail, by rw [hsplit, h1]; simp, hlead, h3, ?_, ⟨c0, x, rfl, h2⟩⟩
  cases c0 with
  | nil => exact ⟨x, [], rfl, h2⟩
  | cons a c0 =>
    refine ⟨a, c0 ++ [x], rfl, ?_⟩
    rw [hzr] at h1
    simp only [List.cons_append, List.cons.injEq] at h1
    rw [← h1.1]; exact hzs

theorem dropWhile_ws_append (lead l : List Char) (h : ∀ ch ∈ lead, isspace ch = true) :
    (lead ++ l).dropWhile isspace = l.dropWhile isspace := by
  induction lead with
  | nil => rfl
  | cons a lead ih =>
    have ha : isspace a = true := h a (by simp)
    simp only [List.cons_append, List.dropWhile_cons, ha, if_true]
    exact ih (fun ch hc => h ch (by simp [hc]))

theorem rdropWhile_append_ws (l trail : List Char) (h : ∀ ch ∈ trail, isspace ch = true) :
    (l ++ trail).rdropWhile isspace = l.rdropWhile isspace := by
  induction trail using List.reverseRecOn with
  | nil => simp
  | append_singleton tr a ih =>
    have ha : isspace a = true := h a (by simp)
    rw [← List.append_assoc, List.rdropWhile_concat_pos _ _ _ ha]
    exact ih (fun ch hc => h ch (by simp [hc]))

theorem specTrim_parts (lead core trail : List Char)
    (hlead : ∀ ch ∈ lead, isspace ch = true) (htrail : ∀ ch ∈ trail, isspace ch = true)
    (hhead : ∃ z c1, core = z :: c1 ∧ isspace z = false)
    (hlast : ∃ c0 x, core = c0 ++ [x] ∧ isspace x = false) :
    specTrim (lead ++ core ++ trail) = core := by
  obtain ⟨z, c1, hz, hzs⟩ := hhead
  obtain ⟨c0, x, hx, hxs⟩ := hlast
  unfold specTrim
  rw [List.append_assoc, dropWhile_ws_append lead _ hlead]
  have hd : (core ++ trail).dropWhile isspace = core ++ trail := by
    rw [hz]
    simp [List.dropWhile_cons, hzs]
  rw [hd, rdropWhile_append_ws core trail htrail, hx]
  exact List.rdropWhile_concat_neg _ _ _ (by simp [hxs])

theorem trim_parts (P lead core trail Q : Mem)
    (hN : ∀ ch ∈ lead ++ core ++ trail, ch ≠ NUL)
    (hlead : ∀ ch ∈ lead, isspace ch = true) (htrail : ∀ ch ∈ trail, isspace ch = true)
    (hhead : ∃ z c1, core = z :: c1 ∧ isspace z = false)
    (hlast : ∃ c0 x, core = c0 ++ [x] ∧ isspace x = false) :
    ltrim (P ++ (lead ++ core ++ trail) ++ NUL :: Q) P.length = P.length + lead.length
    ∧ ∃ y Z, trail ++ NUL :: Q = y :: Z ∧
        trim (P ++ (lead ++ core ++ trail) ++ NUL :: Q) P.length
          = some (P.length + lead.length, P ++ lead ++ core ++ NUL :: Z) := by
  obtain ⟨z, c1, hz, hzs⟩ := hhead
  obtain ⟨c0, x, hx, hxs⟩ := hlast
  obtain ⟨y, Z, hyZ⟩ : ∃ y Z, trail ++ NUL :: Q = y :: Z := by
    cases trail with
    | nil => exact ⟨NUL, Q, rfl⟩
    | cons w tr => exact ⟨w, tr ++ NUL :: Q, rfl⟩
  have hl : ltrim (P ++ (lead ++ core ++ trail) ++ NUL :: Q) P.length
      = P.length + lead.length := by
    unfold ltrim
    rw [List.append_assoc, List.drop_left, hz]
    have : lead ++ z :: c1 ++ trail ++ NUL :: Q = lead ++ z :: (c1 ++ trail ++ NUL :: Q) := by
      simp
    rw [this, takeWhile_stop lead z _ hlead hzs]
  have hc : strlen (P ++ (lead ++ core ++ trail) ++ NUL :: Q) (P.length + lead.length)
      = core.length + trail.length := by
    unfold strlen
    have := cstr_append (P ++ lead) (core ++ trail) Q
      (fun ch h => hN ch (by
        simp only [List.mem_append] at h ⊢
        tauto))
    simp only [List.length_append, List.append_assoc] at this ⊢
    rw [this, List.length_append]
  have hscan : rtrimScan (P ++ (lead ++ core ++ trail) ++ NUL :: Q)
      (P.length + lead.length + (core.length + trail.length))
      = some (P.length + lead.length + c0.length) := by
    have := rtrimScan_stop (P ++ lead ++ c0) x trail hxs htrail (NUL :: Q)
    have e : P.length + lead.length + (core.length + trail.length)
        = (P ++ lead ++ c0).length + 1 + trail.length := by
      simp [hx]; omega
    rw [e, hx]
    simpa [List.append_assoc, Nat.add_assoc] using this
  have hpoke : poke (P ++ (lead ++ core ++ trail) ++ NUL :: Q)
      (P.length + lead.length + c0.length + 1) NUL
      = P ++ lead ++ core ++ NUL :: Z := by
    have := poke_append (P ++ lead ++ (c0 ++ [x])) y NUL Z
    have e : P.length + lead.length + c0.length + 1 = (P ++ lead ++ (c0 ++ [x])).length := by
      simp; omega
    rw [e, hx, ← this, ← hyZ]
    simp [List.append_assoc]
  exact ⟨hl, y, Z, hyZ, by simp only [trim, rtrim, hl, hc, hscan, hpoke]⟩

/-- C18. For every string `s` (a run of bytes without NUL, followed by a NUL,
anywhere in memory) that has a character which is no white space:
`trim(s)` returns the address of the first such character, `ltrim` having
skipped exactly the leading white space, and the string at that address is
`s` from its first to its last character that is no white space, every
character between them unchanged; `trim` of that result returns the same
address and leaves the memory as it is, so `trim(trim(s))` is `trim(s)`. -/
theorem trim_is_inner_substring (P s Q : Mem) (hN : ∀ ch ∈ s, ch ≠ NUL)
    (hvis : ∃ ch ∈ s, isspace ch = false) :
    ∃ lead trail m1,
      s = lead ++ specTrim s ++ trail
      ∧ (∀ ch ∈ lead, isspace ch = true) ∧ (∀ ch ∈ trail, isspace ch = true)
      ∧ (∃ z c1, specTrim s = z :: c1 ∧ isspace z = false)
      ∧ (∃ c0 x, specTrim s = c0 ++ [x] ∧ isspace x = false)
      ∧ ltrim (P ++ s ++ NUL :: Q) P.length = P.length + lead.length
      ∧ trim (P ++ s ++ NUL :: Q) P.length = some (P.length + lead.length, m1)
      ∧ cstr m1 (P.length + lead.length) = specTrim s
      ∧ trim m1 (P.length + lead.length) = some (P.length + lead.length, m1) := by
  obtain ⟨lead, core, trail, hs, hlead, htrail, hhead, hlast⟩ := exists_parts s hvis
  have hspec : specTrim s = core := by
    rw [hs]; exact specTrim_parts lead core trail hlead htrail hhead hlast
  have hNc : ∀ ch ∈ core, ch ≠ NUL := fun ch h => hN ch (by rw [hs]; simp [h])
  obtain ⟨hl, y, Z, -, htrim⟩ := trim_parts P lead core trail Q (by rw [← hs]; exact hN)
    hlead htrail hhead hlast
  obtain ⟨-, y2, Z2, hyZ2, htrim2⟩ := trim_parts (P ++ lead) [] core [] Z
    (by simpa using hNc) (by simp) (by simp) hhead hlast
  simp only [List.nil_append, List.cons.injEq] at hyZ2
  obtain ⟨-, hZ⟩ := hyZ2
  subst hZ
  simp only [List.nil_append, List.append_nil, List.length_append, Nat.add_zero] at htrim2
  refine ⟨lead, trail, P ++ lead ++ core ++ NUL :: Z, by rw [hspec]; exact hs, hlead, htrail,
    by rw [hspec]; exact hhead, by rw [hspec]; exact hlast, ?_, ?_, ?_, htrim2⟩
  · rw [hs]; exact hl
  · rw [hs]; exact htrim
  · rw [hspec]
    have := cstr_append (P ++ lead) core Z hNc
    simpa using this

/-- C18, at the string `"  a b  "`: `trim` returns the address of `a`, where
the string `a b` is left, and is idempotent there. -/
theorem trim_is_inner_substring_witness :
    specTrim "  a b  ".toList = "a b".toList
    ∧ ∃ lead trail m1,
      "  a b  ".toList = lead ++ specTrim "  a b  ".toList ++ trail
      ∧ (∀ ch ∈ lead, isspace ch = true) ∧ (∀ ch ∈ trail, isspace ch = true)
      ∧ (∃ z c1, specTrim "  a b  ".toList = z :: c1 ∧ isspace z = false)
      ∧ (∃ c0 x, specTrim "  a b  ".toList = c0 ++ [x] ∧ isspace x = false)
      ∧ ltrim ([] ++ "  a b  ".toList ++ NUL :: []) 0 = 0 + lead.length
      ∧ trim ([] ++ "  a b  ".toList ++ NUL :: []) 0 = some (0 + lead.length, m1)
      ∧ cstr m1 (0 + lead.length) = specTrim "  a b  ".toList
      ∧ trim m1 (0 + lead.length) = some (0 + lead.length, m1) :=
  ⟨by decide, trim_is_inner_substring [] "  a b  ".toList [] (by decide) (by decide)⟩

theorem rtrimScan_lt (m : Mem) : ∀ (b back : Nat), rtrimScan m b = some back → back < b := by
  intro b
  induction b with
  | zero => intro back h; simp [rtrimScan] at h
  | succ b ih =>
    intro back h
    simp only [rtrimScan] at h
    split at h
    · have := ih back h; omega
    · simp only [Option.some.injEq] at h; omega

/-- C19, evaluated on the code, which departs from it.  `rtrim` starts its
scan with `*--back` from the end of the string it is given, so on an empty
string at address `s` the first byte read is at `s - 1`: whenever the scan
stops at all, it stops below `s`.  With the bytes `x`, blank, NUL in memory
and the empty string at address 2, the scan reads addresses 1 and 0 and
`trim` stores a NUL at address 1; with a NUL at address 0 and the string of
two blanks at address 1, `trim` returns address 3 (the terminating NUL, where
the string is empty) after `rtrim`, given address 3, read addresses 2, 1, 0
and stored at address 1; with a blank at address 0 the scan leaves the
memory.  On an empty input line on a zeroed frame the scan of `main` reads
the byte below `input_char`. -/
theorem rtrim_reads_below_its_string :
    (∀ (m : Mem) (s back : Nat), strlen m s = 0 →
      rtrimScan m (s + strlen m s) = some back → back < s)
    ∧ rtrimScan ['x', ' ', NUL] (2 + strlen ['x', ' ', NUL] 2) = some 0
    ∧ trim ['x', ' ', NUL] 2 = some (2, ['x', NUL, NUL])
    ∧ ltrim [NUL, ' ', ' ', NUL] 1 = 3
    ∧ rtrimScan [NUL, ' ', ' ', NUL] (3 + strlen [NUL, ' ', ' ', NUL] 3) = some 0
    ∧ trim [NUL, ' ', ' ', NUL] 1 = some (3, [NUL, NUL, ' ', NUL])
    ∧ cstr [NUL, NUL, ' ', NUL] 3 = []
    ∧ trim [' ', ' ', NUL] 1 = none
    ∧ rtrimScan (poke (fgets 131072 zeroFrame.mem 1 ['\n']) 1 NUL)
        (ltrim (poke (fgets 131072 zeroFrame.mem 1 ['\n']) 1 NUL) 1
          + strlen (poke (fgets 131072 zeroFrame.mem 1 ['\n']) 1 NUL)
              (ltrim (poke (fgets 131072 zeroFrame.mem 1 ['\n']) 1 NUL) 1))
      = some 0 := by
  refine ⟨?_, by decide, by decide, by decide, by decide, by decide, by decide, by decide,
    by decide⟩
  intro m s back h0 h
  rw [h0, Nat.add_zero] at h
  exact rtrimScan_lt m s back h

theorem strcatLoop_length (args : Nat → Option (List Char)) :
    ∀ (n i : Nat) (acc : List Char),
      (strcatLoop args n i acc).length = totalLengthLoop args n i acc.length := by
  intro n
  induction n with
  | zero => intro i acc; rfl
  | succ n ih =>
    intro i acc
    simp only [strcatLoop, totalLengthLoop]
    cases args i with
    | none => rfl
    | some s =>
      simp only []
      rw [ih]
      simp [Nat.add_assoc]

/-- C20, evaluated on the code, which departs from it.  For every array the
string `concatenateArgs` builds is exactly `totalLength` characters long (each
argument and a blank after it), so with the terminating NUL it writes
`totalLength + 1` bytes into the `totalLength` bytes it asked `malloc` for:
three bytes into two for the array `a`, `NULL`, and one byte into none for the
empty array. -/
theorem concatenateArgs_writes_past_allocation :
    (∀ (n : Nat) (args : Nat → Option (List Char)), bytesWritten n args = totalLength n args + 1)
    ∧ totalLength 131072 (fun i => [some "a".toList].getD i none) = 2
    ∧ bytesWritten 131072 (fun i => [some "a".toList].getD i none) = 3
    ∧ concatenateArgs 131072 true (fun i => [some "a".toList].getD i none) = some "a ".toList
    ∧ totalLength 131072 (fun _ => none) = 0
    ∧ bytesWritten 131072 (fun _ => none) = 1 := by
  refine ⟨?_, by decide, by decide, by decide, by decide, by decide⟩
  intro n args
  simp only [bytesWritten, totalLength, strcatLoop_length args n 0 [], List.length_nil]

/-- C17, evaluated on the code, which departs from it.  On a blank line the
tokenizer leaves `input_char`: `trim` hands `rtrim` the empty string at the
terminating NUL and the scan `*--back` runs down through the blanks of the
line to `input_char[-1]` and on while it reads white space.  With `x` and a
blank below `input_char` (at address 2) the empty line makes the pass store a
NUL at address 1, which is `input_char[-1]`, and go on to dispatch; with only
a blank below `input_char` the scan leaves the memory altogether; and on a
zeroed frame the scan stops at address 0, below `input_char` at address 1,
having read that byte.  The same holds for a line of three blanks and for
either reading of the delimiter constant. -/
theorem blank_line_leaves_input_char :
    spaceBelowFrame.base = 2 ∧ peek spaceBelowFrame.mem 1 = ' '
    ∧ (iteration linuxBlank (lineWorld "") spaceBelowFrame).1
      = [.prompt, .fgets, .fork, .waitpid 4242]
    ∧ (iteration linuxBlank (lineWorld "") spaceBelowFrame).2.1 = .next
    ∧ peek (iteration linuxBlank (lineWorld "") spaceBelowFrame).2.2.mem 1 = NUL
    ∧ peek (iteration linuxSpaces (lineWorld "   ") spaceBelowFrame).2.2.mem 1 = NUL
    ∧ (iteration linuxBlank (lineWorld "") blankBelowFrame).2.1 = .fault
    ∧ (iteration linuxSpaces (lineWorld "   ") blankBelowFrame).2.1 = .fault
    ∧ zeroFrame.base = 1
    ∧ rtrimScan (poke (fgets 131072 zeroFrame.mem 1 "   \n".toList) 4 NUL)
        (ltrim (poke (fgets 131072 zeroFrame.mem 1 "   \n".toList) 4 NUL) 1
          + strlen (poke (fgets 131072 zeroFrame.mem 1 "   \n".toList) 4 NUL)
              (ltrim (poke (fgets 131072 zeroFrame.mem 1 "   \n".toList) 4 NUL) 1))
      = some 0 := by
  refine ⟨by decide, by decide, by decide, by decide, by decide, by decide, by decide,
    by decide, by decide, by decide⟩

end MyShell
